import Mathlib

/-!
Shallow embedding of src/code/text_binarization.py: adaptive document
binarization based on OFF center-surround cells.

Conventions of the embedding:

* Machine floating point numbers are modelled as `F := Option ℚ`.  `some q` is
  an ordinary finite value; `none` models an undefined value (the IEEE NaN that
  numpy produces for 0.0/0.0).  Arithmetic propagates `none`; a division whose
  denominator is zero yields `none`; a comparison against `none` is `false`
  (every comparison with NaN is false in IEEE arithmetic), so the masked
  assignments `a[a < 0] = 0` and `a[a > 1] = 1` of the source leave `none`
  entries unchanged, exactly as numpy leaves NaN entries unchanged.
* Images and response maps are row-major lists of rows (`Mat`).
* The Gaussian filters of skimage are separable convolutions whose discrete
  kernel weights are irrational (they are sampled from exp), so a sigma is
  represented by the sampled one-dimensional kernel it determines: a `Scale`
  carries the two kernels instead of the two sigmas.  The defining property of
  such a kernel (its weights sum to 1) appears as a hypothesis of the theorems
  that need it.  Boundary handling is the reflect mode of scipy.ndimage,
  embedded exactly in `reflectIdx`.
* A raised Python exception is modelled by `none` in an `Option` result.
-/

abbrev F := Option ℚ

abbrev Mat := List (List F)

def fadd : F → F → F
  | some a, some b => some (a + b)
  | _, _ => none

def fsub : F → F → F
  | some a, some b => some (a - b)
  | _, _ => none

def fmul : F → F → F
  | some a, some b => some (a * b)
  | _, _ => none

def fdiv : F → F → F
  | some a, some b => if b = 0 then none else some (a / b)
  | _, _ => none

def fmin : F → F → F
  | some a, some b => some (min a b)
  | _, _ => none

def fmax : F → F → F
  | some a, some b => some (max a b)
  | _, _ => none

def fqmul (q : ℚ) : F → F
  | some a => some (q * a)
  | none => none

/-- Embedding of the masked assignment `a[a < RANGE_MIN] = RANGE_MIN`
(RANGE_MIN = 0): a NaN entry is left unchanged because the comparison is
false on NaN. -/
def clampLow0 : F → F
  | some a => some (max a 0)
  | none => none

/-- Embedding of the masked assignment `a[a > RANGE_MAX] = RANGE_MAX`
(RANGE_MAX = 1). -/
def clampHigh1 : F → F
  | some a => some (min a 1)
  | none => none

def rowLen (m : Mat) : ℕ := (m.headD []).length

def getF (m : Mat) (i j : ℕ) : F := (m.getD i []).getD j none

def matFlatten (m : Mat) : List F := m.flatten

def listFMin : List F → F
  | [] => none
  | x :: xs => xs.foldl fmin x

def listFMax : List F → F
  | [] => none
  | x :: xs => xs.foldl fmax x

/-- Embedding of `arr.min()` (numpy reduction; NaN entries propagate). -/
def amin (m : Mat) : F := listFMin (matFlatten m)

/-- Embedding of `arr.max()`. -/
def amax (m : Mat) : F := listFMax (matFlatten m)

/-- Embedding of `(arr - arr.min()) / (arr.max() - arr.min())`, the min-max
normalization used both in `get_off_center_surround` and in `binarize_text`. -/
def minMaxNormalize (m : Mat) : Mat :=
  let lo := amin m
  let hi := amax m
  m.map (List.map (fun v => fdiv (fsub v lo) (fsub hi lo)))

/-- Elementwise sum of two arrays, the embedding of `+` / `+=` on numpy
arrays of equal shape. -/
def maddF (a b : Mat) : Mat := List.zipWith (List.zipWith fadd) a b

/-- Scipy ndimage boundary mode reflect (half-sample symmetry,
(d c b a | a b c d | d c b a)), used by `gaussian(..., mode='reflect')`. -/
def reflectIdx (n : ℕ) (i : ℤ) : ℕ :=
  let m := (i % (2 * (n : ℤ))).toNat
  if m < n then m else 2 * n - 1 - m

def kradius (k : List ℚ) : ℕ := (k.length - 1) / 2

/-- One output sample of a one-dimensional correlation with kernel `k`;
`read` fetches the input sample at the given offset from the centre. -/
def convEntry (k : List ℚ) (read : ℤ → F) : F :=
  (List.range k.length).foldl
    (fun acc t => fadd acc (fqmul (k.getD t 0) (read ((t : ℤ) - (kradius k : ℤ)))))
    (some 0)

/-- Horizontal pass of the separable Gaussian filter. -/
def convRows (k : List ℚ) (m : Mat) : Mat :=
  let h := m.length
  let w := rowLen m
  (List.range h).map (fun (i : ℕ) => (List.range w).map (fun (j : ℕ) =>
    convEntry k (fun off => getF m i (reflectIdx w ((j : ℤ) + off)))))

/-- Vertical pass of the separable Gaussian filter. -/
def convCols (k : List ℚ) (m : Mat) : Mat :=
  let h := m.length
  let w := rowLen m
  (List.range h).map (fun (i : ℕ) => (List.range w).map (fun (j : ℕ) =>
    convEntry k (fun off => getF m (reflectIdx h ((i : ℤ) + off)) j)))

/-- Embedding of `skimage.filters.gaussian(image, sigma, mode='reflect')` for
the sampled kernel `k` of the sigma: a separable correlation, axis 0 then
axis 1, with reflect boundary handling. -/
def blurW (k : List ℚ) (m : Mat) : Mat := convRows k (convCols k m)

/-- Per-pixel computation of `get_off_center_surround` (all source operations
are elementwise): `off = surround - center`; clamp below at 0; divisive
normalization `(1 + surround) * off / (surround + off)`; clamp to [0, 1];
optional inversion `1 - off`. -/
def csEntry (invert : Bool) (c s : F) : F :=
  let d := clampLow0 (fsub s c)
  let r := fdiv (fmul (fadd (some 1) s) d) (fadd s d)
  let r2 := clampHigh1 (clampLow0 r)
  if invert then fsub (some 1) r2 else r2

/-- Embedding of `get_off_center_surround` from the source: the response of
OFF center-surround cells given the receptive field images of center and
surround. -/
def get_off_center_surround (center surround : Mat) (invert min_max_norm : Bool) : Mat :=
  let h := center.length
  let w := rowLen center
  let base := (List.range h).map (fun i => (List.range w).map (fun j =>
    csEntry invert (getF center i j) (getF surround i j)))
  if min_max_norm then minMaxNormalize base else base

/-- One spatial scale of the pipeline.  The source stores the two sigmas of
the Gaussians; the embedding stores the sampled kernels those sigmas
determine (see the header comment). -/
structure Scale where
  kernel_center : List ℚ
  kernel_surround : List ℚ

/-- The per-scale loop of `binarize_text`: blur with the surround and the
center sigma, then `get_off_center_surround(center, surround, invert=True,
min_max_norm=False)`. -/
def perScaleResponses (scales : List Scale) (image : Mat) : List Mat :=
  scales.map (fun sc =>
    get_off_center_surround (blurW sc.kernel_center image) (blurW sc.kernel_surround image)
      true false)

/-- The combine-and-normalize step of `binarize_text`: start from
`ls_off_cs_cells[0].copy()`, add the remaining responses in place, then
min-max normalize.  For an empty scale list the source raises an IndexError
at `ls_off_cs_cells[0]`; that case is handled by the caller
`binarize_text`. -/
def combinedResponse (scales : List Scale) (image : Mat) : Mat :=
  match perScaleResponses scales image with
  | [] => []
  | m0 :: rest => minMaxNormalize (rest.foldl maddF m0)

/-- Sequencing of a matrix of floats into a matrix of defined values: `some`
iff no entry is NaN. -/
def seqMat (m : Mat) : Option (List (List ℚ)) := m.mapM (fun row => row.mapM id)

def listMin : List ℚ → ℚ
  | [] => 0
  | x :: xs => xs.foldl min x

def listMax : List ℚ → ℚ
  | [] => 0
  | x :: xs => xs.foldl max x

/-- Running prefix sums, the embedding of `np.cumsum`. -/
def cumsum : List ℚ → ℚ → List ℚ
  | [], _ => []
  | x :: xs, s => (s + x) :: cumsum xs (s + x)

/-- Histogram bin of a value for 256 equal bins spanning [lo, hi] (np.histogram
with range (lo, hi); the right edge of the last bin is inclusive). -/
def binIndex (lo hi v : ℚ) : ℕ :=
  min 255 (Int.toNat (Int.floor ((v - lo) * 256 / (hi - lo))))

def zipWith4 (f : ℚ → ℚ → ℚ → ℚ → ℚ) : List ℚ → List ℚ → List ℚ → List ℚ → List ℚ
  | a :: as, b :: bs, c :: cs, d :: ds => f a b c d :: zipWith4 f as bs cs ds
  | _, _, _, _ => []

def argmaxAux : List ℚ → ℕ → ℕ → ℚ → ℕ
  | [], _, bi, _ => bi
  | x :: xs, i, bi, bv => if bv < x then argmaxAux xs (i + 1) i x else argmaxAux xs (i + 1) bi bv

/-- Index of the first maximal element, the embedding of `np.argmax`. -/
def argmax : List ℚ → ℕ
  | [] => 0
  | x :: xs => argmaxAux xs 1 0 x

/-- Bin centres of the 256-bin histogram over [lo, hi]. -/
def otsuCenters (lo hi : ℚ) : List ℚ :=
  (List.range 256).map (fun (i : ℕ) => lo + (2 * (i : ℚ) + 1) * (hi - lo) / 512)

/-- Between-class variances of the 255 candidate thresholds, mirroring the
cumulative-sum computation of `skimage.filters.threshold_otsu`. -/
def otsuVariances (xs : List ℚ) : List ℚ :=
  let lo := listMin xs
  let hi := listMax xs
  let counts : List ℚ := (List.range 256).map
    (fun i => ((xs.countP (fun v => binIndex lo hi v == i) : ℕ) : ℚ))
  let centers := otsuCenters lo hi
  let w1 := cumsum counts 0
  let w2 := (cumsum counts.reverse 0).reverse
  let cc := List.zipWith (fun a b => a * b) counts centers
  let m1 := List.zipWith (fun a b => a / b) (cumsum cc 0) w1
  let m2 := (List.zipWith (fun a b => a / b) (cumsum cc.reverse 0) w2.reverse).reverse
  zipWith4 (fun a b c d => a * b * (c - d) ^ 2)
    (w1.take 255) (w2.drop 1) (m1.take 255) (m2.drop 1)

/-- Embedding of `skimage.filters.threshold_otsu(image)` with its default 256
bins: histogram over [min, max], cumulative class weights and means, and the
bin centre (of the first 255) maximizing the between-class variance
(`np.argmax` takes the first maximum). -/
def threshold_otsu (xs : List ℚ) : ℚ :=
  (otsuCenters (listMin xs) (listMax xs)).getD (argmax (otsuVariances xs)) 0

/-- Embedding of the thresholding step
`binary = off_cs_cells > threshold_otsu(off_cs_cells) * boldness`. -/
def maskOf (m : List (List ℚ)) (boldness : ℚ) : List (List Bool) :=
  let t := threshold_otsu m.flatten
  m.map (List.map (fun v => decide (t * boldness < v)))

/-- Embedding of `~arr` on a boolean numpy array. -/
def complementB (m : List (List Bool)) : List (List Bool) := m.map (List.map not)

abbrev Pos := ℕ × ℕ

/-- Four-neighbour (connectivity = 1) adjacency on grid positions. -/
def adjB (p q : Pos) : Bool :=
  (p.1 == q.1 && (p.2 + 1 == q.2 || q.2 + 1 == p.2)) ||
  (p.2 == q.2 && (p.1 + 1 == q.1 || q.1 + 1 == p.1))

def getB (m : List (List Bool)) (p : Pos) : Bool := (m.getD p.1 []).getD p.2 false

def rowLenB (m : List (List Bool)) : ℕ := (m.headD []).length

def allPos (h w : ℕ) : Finset Pos := Finset.range h ×ˢ Finset.range w

/-- One flood-fill round of connected component labelling: adjoin every true
pixel adjacent to the current region. -/
def expandStep (m : List (List Bool)) (S : Finset Pos) : Finset Pos :=
  S ∪ (allPos m.length (rowLenB m)).filter
    (fun q => getB m q = true ∧ ∃ p ∈ S, adjB p q = true)

/-- The 4-connected region grown from `p` by iterated flood-fill rounds; after
h·w + 1 rounds the iteration has reached its fixed point, the connected
component of `p`. -/
def comp (m : List (List Bool)) (p : Pos) : Finset Pos :=
  (expandStep m)^[m.length * rowLenB m + 1] {p}

/-- Embedding of `skimage.morphology.remove_small_objects(ar, min_size,
connectivity=1, in_place=False)`: label the 4-connected components of the
true pixels and clear every component whose pixel count is below
`min_size`. -/
def remove_small_objects (ar : List (List Bool)) (min_size : ℕ) : List (List Bool) :=
  (List.range ar.length).map (fun i => (List.range (rowLenB ar)).map (fun j =>
    getB ar (i, j) && decide (min_size ≤ (comp ar (i, j)).card)))

/-- The input of `binarize_text`: a H×W×3 RGB array (already in float form, as
`rgb2gray` converts), a H×W integer (uint8) array, or a H×W float array.  The
distinction between the two single-channel cases models the numpy dtype that
`img_as_float` dispatches on: integer samples are divided by 255, float
samples pass through unchanged. -/
inductive InputImage where
  | rgb (channels : List (List (ℚ × ℚ × ℚ)))
  | gray8 (samples : List (List ℕ))
  | grayF (samples : List (List ℚ))

/-- Embedding of the grayscale step of `binarize_text`:
`rgb2gray(image_array.copy())` for 3-channel input (luminance weights
0.2125, 0.7154, 0.0721 of skimage) and `img_as_float(image_array.copy())`
otherwise (uint8 divided by 255, floats unchanged). -/
def grayscaleStep : InputImage → Mat
  | .rgb c => c.map (List.map (fun t =>
      some (2125 / 10000 * t.1 + 7154 / 10000 * t.2.1 + 721 / 10000 * t.2.2)))
  | .gray8 g => g.map (List.map (fun u => some (((u : ℕ) : ℚ) / 255)))
  | .grayF g => g.map (List.map some)

/-- Total number of true pixels of a boolean mask. -/
def countTrue (m : List (List Bool)) : ℕ := m.flatten.countP (fun b => b)

/-- A float value that is defined (not NaN) and lies in the unit interval. -/
def inUnit (v : F) : Prop := ∃ q : ℚ, v = some q ∧ 0 ≤ q ∧ q ≤ 1

/-- Every entry of the matrix is a defined value in [0, 1]. -/
def allInUnit (m : Mat) : Prop := ∀ v ∈ matFlatten m, inUnit v

/-- Modelled from the spec (section 4.3): the per-pixel CenterSurroundResponse
value as the specification words it — `diff = max(surround - center, 0)`,
`response = (1 + surround) * diff / (surround + diff)` clamped to [0, 1],
then `1 - response` for the inverted polarity.  Used to compare the code's
`csEntry` against the specified formula. -/
def specCsValue (c s : ℚ) : ℚ :=
  1 - min (max ((1 + s) * max (s - c) 0 / (s + max (s - c) 0)) 0) 1

/-- Modelled from the spec (section 4.4): the elementwise sum of the per-scale
response maps, written independently of the source's copy-then-add-in-place
loop, for the refinement statement of the combine step. -/
def elementwiseSum : List Mat → Mat
  | [] => []
  | [m] => m
  | m :: r :: rest => maddF m (elementwiseSum (r :: rest))

/-- One step of 4-connected reachability inside the true pixels of a mask:
move to an adjacent true pixel. -/
def stepRel (m : List (List Bool)) (a b : Pos) : Prop :=
  adjB a b = true ∧ getB m b = true

/-- Declarative 4-connected reachability inside the true pixels of a mask. -/
def reaches (m : List (List Bool)) : Pos → Pos → Prop :=
  Relation.ReflTransGen (stepRel m)

/-- Declarative characterisation of a maximal 4-connected group of true
pixels: nonempty, all true, closed under adjacency to true pixels
(maximality), and pairwise connected. -/
def IsComponent (m : List (List Bool)) (S : Finset Pos) : Prop :=
  S.Nonempty ∧ (∀ q ∈ S, getB m q = true) ∧
  (∀ a ∈ S, ∀ b ∈ allPos m.length (rowLenB m), adjB a b = true → getB m b = true → b ∈ S) ∧
  (∀ a ∈ S, ∀ b ∈ S, reaches m a b)

/-- Rectangularity of a mask: every row has the length of the first row. -/
def isRect (m : List (List Bool)) : Bool := m.all (fun row => row.length == rowLenB m)

/-- Embedding of `binarize_text` (verbose=False path; the verbose branch only
plots).  `none` models a raised exception: an IndexError for an empty scale
list, and the ValueError that numpy reductions and `threshold_otsu` raise on
empty or NaN data. -/
def binarize_text (image_array : InputImage) (center_surround_sigma : List Scale)
    (boldness : ℚ) (remove_elements_smaller_than : Option ℕ) :
    Option (List (List Bool)) :=
  if center_surround_sigma.isEmpty then none
  else
    let image := grayscaleStep image_array
    let off := combinedResponse center_surround_sigma image
    if (matFlatten off).isEmpty then none
    else
      match seqMat off with
      | none => none
      | some offQ =>
        let binary := maskOf offQ boldness
        match remove_elements_smaller_than with
        | none => some binary
        | some n => some (complementB (remove_small_objects (complementB binary) n))

/-- Heap object for the state-passing embedding used by the frame property:
a numpy array in one of the shapes the pipeline handles. -/
inductive NpObj where
  | input (img : InputImage)
  | mat (m : Mat)
  | bmask (b : List (List Bool))

/-- A heap of numpy buffers; references are list indices. -/
abbrev Heap := List NpObj

def readH (h : Heap) (r : ℕ) : NpObj := h.getD r (.mat [])

/-- Allocation of a fresh buffer, returning the new heap and the reference. -/
def allocH (h : Heap) (v : NpObj) : Heap × ℕ := (h ++ [v], h.length)

/-- In-place update of an existing buffer. -/
def writeH (h : Heap) (r : ℕ) (v : NpObj) : Heap := h.set r v

def readInput : NpObj → InputImage
  | .input i => i
  | .mat _ => .grayF []
  | .bmask _ => .grayF []

def asMat : NpObj → Mat
  | .mat m => m
  | _ => []

def asBool : NpObj → List (List Bool)
  | .bmask b => b
  | _ => []

/-- One iteration of the per-scale loop of `binarize_text` at heap level:
`gaussian` allocates the surround and the center, `get_off_center_surround`
allocates its result (its masked assignments mutate only arrays derived from
`surround - center`, which are fresh); the reference of the response is
appended to the Python list `ls_off_cs_cells`. -/
def scaleLoopStep (rImage : ℕ) (acc : Heap × List ℕ) (sc : Scale) : Heap × List ℕ :=
  let image := asMat (readH acc.1 rImage)
  let p1 := allocH acc.1 (.mat (blurW sc.kernel_surround image))
  let p2 := allocH p1.1 (.mat (blurW sc.kernel_center image))
  let p3 := allocH p2.1
    (.mat (get_off_center_surround (asMat (readH p2.1 p2.2)) (asMat (readH p2.1 p1.2)) true false))
  (p3.1, acc.2 ++ [p3.2])

/-- One iteration of `off_cs_cells += ls_off_cs_cells[i]`: the only in-place
write of the function, targeting the buffer allocated by
`ls_off_cs_cells[0].copy()`. -/
def addLoopStep (rAcc : ℕ) (hp : Heap) (ri : ℕ) : Heap :=
  writeH hp rAcc (.mat (maddF (asMat (readH hp rAcc)) (asMat (readH hp ri))))

/-- The part of the heap-level pipeline after the per-scale loop, given the
references of the per-scale responses (`ls_off_cs_cells`): copy the first
response, add the rest in place, allocate the normalized map, the thresholded
mask and (optionally) the denoised mask. -/
def combine_heap (hp : Heap) (refs : List ℕ) (boldness : ℚ) (rm : Option ℕ) :
    Heap × Option ℕ :=
  match refs with
  | [] => (hp, none)
  | r0 :: rest =>
    let pc := allocH hp (.mat (asMat (readH hp r0)))
    let h4 := rest.foldl (addLoopStep pc.2) pc.1
    let p5 := allocH h4 (.mat (minMaxNormalize (asMat (readH h4 pc.2))))
    if (matFlatten (asMat (readH p5.1 p5.2))).isEmpty then (p5.1, none)
    else
      match seqMat (asMat (readH p5.1 p5.2)) with
      | none => (p5.1, none)
      | some offQ =>
        let p6 := allocH p5.1 (.bmask (maskOf offQ boldness))
        match rm with
        | none => (p6.1, some p6.2)
        | some n =>
          let p7 := allocH p6.1
            (.bmask (complementB (remove_small_objects (complementB (asBool (readH p6.1 p6.2))) n)))
          (p7.1, some p7.2)

/-- State-passing embedding of `binarize_text`, mirroring its statements on an
explicit heap of numpy buffers: the grayscale conversion reads the caller's
array and allocates (`image_array.copy()` feeds `rgb2gray` / `img_as_float`,
both of which allocate), each loop iteration allocates blur and response
buffers, `ls_off_cs_cells[0].copy()` allocates the accumulator, `+=` writes
it in place, and the normalization, thresholding and morphological steps each
allocate fresh results (`in_place=False`).  Returns the final heap and the
reference of the result mask, `none` modelling a raised exception. -/
def binarize_text_heap (h0 : Heap) (imgRef : ℕ) (scales : List Scale)
    (boldness : ℚ) (rm : Option ℕ) : Heap × Option ℕ :=
  let p1 := allocH h0 (.mat (grayscaleStep (readInput (readH h0 imgRef))))
  let lp := scales.foldl (scaleLoopStep p1.2) (p1.1, [])
  combine_heap lp.1 lp.2 boldness rm

/-! ### Helper lemmas: access to grid-built matrices -/

theorem getF_grid (h w : ℕ) (f : ℕ → ℕ → F) {i j : ℕ} (hi : i < h) (hj : j < w) :
    getF ((List.range h).map (fun a => (List.range w).map (fun b => f a b))) i j = f i j := by
  unfold getF
  simp [List.getD_eq_getElem?_getD, List.getElem?_range hi, List.getElem?_range hj]

theorem get_off_no_norm (C S : Mat) (inv : Bool) :
    get_off_center_surround C S inv false =
      (List.range C.length).map (fun a => (List.range (rowLen C)).map (fun b =>
        csEntry inv (getF C a b) (getF S a b))) := by
  simp [get_off_center_surround]

theorem getF_cs (C S : Mat) (inv : Bool) {i j : ℕ} (hi : i < C.length) (hj : j < rowLen C) :
    getF (get_off_center_surround C S inv false) i j = csEntry inv (getF C i j) (getF S i j) := by
  rw [get_off_no_norm]
  exact getF_grid _ _ _ hi hj

/-! ### Claim C4 -/

/-- Claim C4 (amended): the division of `get_off_center_surround` is NOT
guarded.  At every pixel where the surround is 0 and the center is
non-negative (so that `diff = max(surround - center, 0) = 0` and
`surround + diff = 0`), the computed response is the undefined value NaN —
it propagates through both clamping masks and through the inversion — rather
than the value 0 that the specification prescribes. -/
theorem cs_zero_division_undefined (C S : Mat) (inv : Bool) (i j : ℕ) (c : ℚ)
    (hi : i < C.length) (hj : j < rowLen C)
    (hc : getF C i j = some c) (hs : getF S i j = some 0) (hcnn : 0 ≤ c) :
    getF (get_off_center_surround C S inv false) i j = none := by
  rw [getF_cs C S inv hi hj, hc, hs]
  cases inv <;>
    simp [csEntry, clampLow0, clampHigh1, fsub, fadd, fmul, fdiv, hcnn]

theorem cs_zero_division_undefined_witness :
    (0 : ℚ) ≤ 2 ∧
      getF (get_off_center_surround [[some 2]] [[some 0]] true false) 0 0 = none :=
  ⟨by norm_num,
    cs_zero_division_undefined [[some 2]] [[some 0]] true 0 0 2 (by decide) (by decide)
      rfl rfl (by norm_num)⟩

/-- Claim C4 (counterexample): with center = [[0]] and surround = [[0]] (both
non-negative, `surround + diff = 0` at the only pixel) the response of
`get_off_center_surround` is the undefined value NaN, not the value 0 the
claim asserts. -/
theorem cs_zero_division_counterexample :
    get_off_center_surround [[some 0]] [[some 0]] true false = [[none]] ∧
      ¬ getF (get_off_center_surround [[some 0]] [[some 0]] true false) 0 0 = some (0 : ℚ) := by
  have h : get_off_center_surround [[some 0]] [[some 0]] true false = [[none]] := by
    with_unfolding_all rfl
  refine ⟨h, ?_⟩
  rw [h]
  simp [getF]

/-! ### Claim C7 -/

/-- Claim C7 (amended): for matrices with values in [0, 1], at every pixel
whose surround value is strictly positive (equivalently, where
`surround + diff` is nonzero), `get_off_center_surround` with invert enabled
and per-scale normalization disabled returns exactly
`1 - clamp((1 + s) * max(s - c, 0) / (s + max(s - c, 0)), 0, 1)`, and this
value lies in [0, 1].  (At pixels with surround = 0 the response is NaN
instead; see claim C4.) -/
theorem cs_response_unit_interval (C S : Mat) (i j : ℕ) (c s : ℚ)
    (hi : i < C.length) (hj : j < rowLen C)
    (hc : getF C i j = some c) (hs : getF S i j = some s)
    (hc0 : 0 ≤ c) (hc1 : c ≤ 1) (hs0 : 0 < s) (hs1 : s ≤ 1) :
    getF (get_off_center_surround C S true false) i j = some (specCsValue c s)
      ∧ 0 ≤ specCsValue c s ∧ specCsValue c s ≤ 1 := by
  have hd0 : (0 : ℚ) ≤ max (s - c) 0 := le_max_right _ _
  have hden : s + max (s - c) 0 ≠ 0 := (add_pos_of_pos_of_nonneg hs0 hd0).ne'
  have ht0 : (0 : ℚ) ≤ min (max ((1 + s) * max (s - c) 0 / (s + max (s - c) 0)) 0) 1 :=
    le_min (le_max_right _ _) zero_le_one
  have ht1 : min (max ((1 + s) * max (s - c) 0 / (s + max (s - c) 0)) 0) 1 ≤ 1 :=
    min_le_right _ _
  refine ⟨?_, ?_, ?_⟩
  · rw [getF_cs C S true hi hj, hc, hs]
    simp [csEntry, clampLow0, clampHigh1, fsub, fadd, fmul, fdiv, hden, specCsValue]
  · unfold specCsValue
    linarith
  · unfold specCsValue
    linarith

theorem cs_response_unit_interval_witness :
    ((0 : ℚ) ≤ 1/2 ∧ (1/2 : ℚ) ≤ 1 ∧ (0 : ℚ) < 3/4 ∧ (3/4 : ℚ) ≤ 1) ∧
      (getF (get_off_center_surround [[some (1/2)]] [[some (3/4)]] true false) 0 0
          = some (specCsValue (1/2) (3/4))
        ∧ 0 ≤ specCsValue (1/2) (3/4) ∧ specCsValue (1/2) (3/4) ≤ 1) :=
  ⟨⟨by norm_num, by norm_num, by norm_num, by norm_num⟩,
    cs_response_unit_interval [[some (1/2)]] [[some (3/4)]] 0 0 (1/2) (3/4)
      (by decide) (by decide) rfl rfl
      (by norm_num) (by norm_num) (by norm_num) (by norm_num)⟩

/-- Claim C7 (counterexample): both input matrices have all values in [0, 1],
yet the returned matrix has an entry (where center = surround = 0) that is
the undefined value NaN, not a value in [0, 1]. -/
theorem cs_unit_range_counterexample :
    get_off_center_surround [[some 1, some 0]] [[some 1, some 0]] true false
        = [[some 1, none]] ∧
      ¬ inUnit (getF (get_off_center_surround [[some 1, some 0]] [[some 1, some 0]]
        true false) 0 1) := by
  have h : get_off_center_surround [[some 1, some 0]] [[some 1, some 0]] true false
      = [[some 1, none]] := by
    with_unfolding_all rfl
  refine ⟨h, ?_⟩
  rw [h]
  simp [getF, inUnit]

/-! ### Claim C8 -/

/-- Claim C8 (amended): the single-channel normalization of `binarize_text`
(`img_as_float`) rescales by dtype, not by value range: integer (uint8)
samples are divided by 255, so they always land in [0, 1]; floating-point
samples pass through unchanged even when they lie outside [0, 1].  This
theorem is the uint8 half. -/
theorem grayscale_uint8_unit_interval (g : List (List ℕ))
    (hb : ∀ u ∈ g.flatten, u ≤ 255) :
    allInUnit (grayscaleStep (InputImage.gray8 g)) := by
  intro v hv
  have hfl : matFlatten (grayscaleStep (InputImage.gray8 g))
      = g.flatten.map (fun u => some (((u : ℕ) : ℚ) / 255)) := by
    simp [grayscaleStep, matFlatten, List.map_flatten]
  rw [hfl] at hv
  obtain ⟨u, hu, rfl⟩ := List.mem_map.mp hv
  refine ⟨(u : ℚ) / 255, rfl, by positivity, ?_⟩
  rw [div_le_one (by norm_num)]
  exact_mod_cast hb u hu

theorem grayscale_uint8_unit_interval_witness :
    (∀ u ∈ ([[200, 7]] : List (List ℕ)).flatten, u ≤ 255) ∧
      allInUnit (grayscaleStep (InputImage.gray8 [[200, 7]])) :=
  ⟨by decide, grayscale_uint8_unit_interval [[200, 7]] (by decide)⟩

/-- Claim C8 (counterexample): a single-channel float image with the sample 2
(outside [0, 1]) is passed through unchanged by the grayscale step, so the
resulting intensity matrix does not have all values in [0, 1]. -/
theorem grayscale_float_out_of_range :
    grayscaleStep (InputImage.grayF [[2]]) = [[some 2]] ∧
      ¬ allInUnit (grayscaleStep (InputImage.grayF [[2]])) := by
  refine ⟨rfl, ?_⟩
  intro hcontra
  obtain ⟨q, hq, h0, h1⟩ := hcontra (some 2) (by simp [grayscaleStep, matFlatten])
  rw [Option.some.injEq] at hq
  rw [← hq] at h1
  norm_num at h1

/-! ### Helper lemmas: minimum, maximum, argmax, Otsu threshold -/

theorem foldl_min_le_init (l : List ℚ) (a : ℚ) : l.foldl min a ≤ a := by
  induction l generalizing a with
  | nil => exact le_refl a
  | cons x xs ih => exact le_trans (ih (min a x)) (min_le_left a x)

theorem init_le_foldl_max (l : List ℚ) (a : ℚ) : a ≤ l.foldl max a := by
  induction l generalizing a with
  | nil => exact le_refl a
  | cons x xs ih => exact le_trans (le_max_left a x) (ih (max a x))

theorem foldl_min_nonneg (l : List ℚ) (a : ℚ) (ha : 0 ≤ a) (h : ∀ v ∈ l, 0 ≤ v) :
    0 ≤ l.foldl min a := by
  induction l generalizing a with
  | nil => exact ha
  | cons x xs ih =>
    exact ih (min a x) (le_min ha (h x (List.mem_cons_self x xs)))
      (fun v hv => h v (List.mem_cons_of_mem x hv))

theorem listMin_nonneg (l : List ℚ) (h : ∀ v ∈ l, 0 ≤ v) : 0 ≤ listMin l := by
  cases l with
  | nil => exact le_refl 0
  | cons x xs =>
    exact foldl_min_nonneg xs x (h x (List.mem_cons_self x xs))
      (fun v hv => h v (List.mem_cons_of_mem x hv))

theorem listMin_le_listMax (l : List ℚ) (h : l ≠ []) : listMin l ≤ listMax l := by
  cases l with
  | nil => exact absurd rfl h
  | cons x xs =>
    exact le_trans (foldl_min_le_init xs x) (init_le_foldl_max xs x)

theorem argmaxAux_lt (xs : List ℚ) : ∀ (i bi : ℕ) (bv : ℚ), bi < i →
    argmaxAux xs i bi bv < i + xs.length := by
  induction xs with
  | nil =>
    intro i bi bv h
    simp only [argmaxAux, List.length_nil]
    omega
  | cons x t ih =>
    intro i bi bv h
    unfold argmaxAux
    by_cases hx : bv < x
    · rw [if_pos hx]
      have h2 := ih (i + 1) i x (Nat.lt_succ_self i)
      simp only [List.length_cons]
      omega
    · rw [if_neg hx]
      have h2 := ih (i + 1) bi bv (by omega)
      simp only [List.length_cons]
      omega

theorem argmax_lt_length (l : List ℚ) (h : l ≠ []) : argmax l < l.length := by
  cases l with
  | nil => exact absurd rfl h
  | cons x xs =>
    have h2 := argmaxAux_lt xs 1 0 x Nat.one_pos
    simp only [argmax, List.length_cons]
    omega

theorem cumsum_length (l : List ℚ) (s : ℚ) : (cumsum l s).length = l.length := by
  induction l generalizing s with
  | nil => rfl
  | cons x xs ih => simp [cumsum, ih]

theorem zipWith4_length (f : ℚ → ℚ → ℚ → ℚ → ℚ) (a b c d : List ℚ) :
    (zipWith4 f a b c d).length
      = min (min a.length b.length) (min c.length d.length) := by
  induction a generalizing b c d with
  | nil => simp [zipWith4]
  | cons x t ih =>
    cases b with
    | nil => simp [zipWith4]
    | cons y tb =>
      cases c with
      | nil => simp [zipWith4]
      | cons z tc =>
        cases d with
        | nil => simp [zipWith4]
        | cons u td => simp [zipWith4, ih]; omega

theorem otsuVariances_length (xs : List ℚ) : (otsuVariances xs).length = 255 := by
  unfold otsuVariances
  simp only [zipWith4_length, List.length_take, List.length_drop, List.length_reverse,
    cumsum_length, List.length_zipWith, List.length_map, List.length_range, otsuCenters]
  omega

theorem getD_range_map (n : ℕ) (f : ℕ → ℚ) (i : ℕ) (d : ℚ) (h : i < n) :
    ((List.range n).map f).getD i d = f i := by
  rw [List.getD_eq_getElem?_getD, List.getElem?_map, List.getElem?_range h]
  rfl

theorem threshold_otsu_eq (xs : List ℚ) :
    threshold_otsu xs
      = listMin xs + (2 * ((argmax (otsuVariances xs)) : ℚ) + 1)
          * (listMax xs - listMin xs) / 512 := by
  have hidx : argmax (otsuVariances xs) < 256 := by
    have h := argmax_lt_length (otsuVariances xs)
      (by rw [← List.length_pos_iff_ne_nil, otsuVariances_length]; omega)
    rw [otsuVariances_length] at h
    omega
  show (otsuCenters (listMin xs) (listMax xs)).getD (argmax (otsuVariances xs)) 0 = _
  unfold otsuCenters
  exact getD_range_map 256 _ _ 0 hidx

theorem otsu_nonneg (xs : List ℚ) (hne : xs ≠ []) (hnn : ∀ v ∈ xs, 0 ≤ v) :
    0 ≤ threshold_otsu xs := by
  rw [threshold_otsu_eq]
  have h1 : 0 ≤ listMin xs := listMin_nonneg xs hnn
  have h2 : listMin xs ≤ listMax xs := listMin_le_listMax xs hne
  have h3 : (0 : ℚ) ≤ 2 * ((argmax (otsuVariances xs)) : ℚ) + 1 := by positivity
  have h4 : (0 : ℚ) ≤ (2 * ((argmax (otsuVariances xs)) : ℚ) + 1)
      * (listMax xs - listMin xs) / 512 :=
    div_nonneg (mul_nonneg h3 (sub_nonneg.2 h2)) (by norm_num)
  linarith

/-! ### Claim C1 -/

theorem countTrue_maskOf (m : List (List ℚ)) (b : ℚ) :
    countTrue (maskOf m b)
      = m.flatten.countP (fun v => decide (threshold_otsu m.flatten * b < v)) := by
  unfold countTrue maskOf
  rw [← List.map_flatten, List.countP_map]
  rfl

/-- Claim C1 (amended): the foreground count of the thresholded mask is
ANTITONE in boldness, not monotone as the claim states.  For a fixed response
map with non-negative values (as the normalized combined response is), the
Otsu threshold is non-negative, so raising `boldness` raises the effective
threshold `otsu * boldness` and the number of pixels satisfying the strict
criterion `value > otsu * boldness` cannot increase; it can strictly
decrease. -/
theorem count_antitone_in_boldness (m : List (List ℚ)) (b₁ b₂ : ℚ)
    (hnn : ∀ v ∈ m.flatten, 0 ≤ v) (hb : 0 ≤ b₁) (hle : b₁ ≤ b₂) :
    countTrue (maskOf m b₂) ≤ countTrue (maskOf m b₁) := by
  rw [countTrue_maskOf, countTrue_maskOf]
  rcases eq_or_ne m.flatten [] with hfl | hfl
  · simp [hfl]
  · have ht : 0 ≤ threshold_otsu m.flatten := otsu_nonneg m.flatten hfl hnn
    have hmul : threshold_otsu m.flatten * b₁ ≤ threshold_otsu m.flatten * b₂ :=
      mul_le_mul_of_nonneg_left hle ht
    refine List.countP_mono_left ?_
    intro v _ hv
    rw [decide_eq_true_eq] at hv ⊢
    exact lt_of_le_of_lt hmul hv

theorem count_antitone_in_boldness_witness :
    ((∀ v ∈ ([[0, 1]] : List (List ℚ)).flatten, 0 ≤ v) ∧ (0 : ℚ) ≤ 1 ∧ (1 : ℚ) ≤ 2) ∧
      countTrue (maskOf [[0, 1]] 2) ≤ countTrue (maskOf [[0, 1]] 1) := by
  have hnn : ∀ v ∈ ([[0, 1]] : List (List ℚ)).flatten, 0 ≤ v := by
    intro v hv
    fin_cases hv <;> norm_num
  exact ⟨⟨hnn, by norm_num, by norm_num⟩,
    count_antitone_in_boldness [[0, 1]] 1 2 hnn (by norm_num) (by norm_num)⟩

set_option maxRecDepth 100000 in
/-- Claim C1 (counterexample): on the image [1/4, 1/4, 1, 1] with one scale
(center kernel the identity, surround kernel [1/4, 1/2, 1/4]) the combined
response is [1, 0, 1, 1] and the Otsu threshold is 1/512; increasing
boldness from 1 to 1000 DECREASES the total foreground count of the
thresholded mask from 3 to 0, so the count is not monotone increasing in
boldness. -/
theorem boldness_monotonicity_counterexample :
    binarize_text (InputImage.grayF [[1/4, 1/4, 1, 1]])
        [⟨[1], [1/4, 1/2, 1/4]⟩] 1 none = some [[true, false, true, true]] ∧
      binarize_text (InputImage.grayF [[1/4, 1/4, 1, 1]])
        [⟨[1], [1/4, 1/2, 1/4]⟩] 1000 none = some [[false, false, false, false]] ∧
      (1 : ℚ) < 1000 ∧
      countTrue [[false, false, false, false]] < countTrue [[true, false, true, true]] := by
  refine ⟨?_, ?_, by norm_num, by decide⟩
  · with_unfolding_all rfl
  · with_unfolding_all rfl

/-! ### Claim C5 -/

/-- Claim C5 (amended): the pipeline performs no parameter validation.  With
an empty scale list the call fails, but with an unhandled IndexError at
`ls_off_cs_cells[0]` rather than an InvalidParameter error; a non-positive
boldness (and a non-positive sigma, which is merely forwarded to the Gaussian
filter) is not checked at all and the call proceeds normally (see the
counterexample, where boldness = -1 succeeds). -/
theorem empty_scales_fails (img : InputImage) (b : ℚ) (rm : Option ℕ) :
    binarize_text img [] b rm = none := rfl

set_option maxRecDepth 100000 in
/-- Claim C5 (counterexample): calling the pipeline with the non-positive
boldness -1 does not fail with InvalidParameter (or any error): it succeeds
and returns a mask. -/
theorem nonpositive_boldness_succeeds :
    binarize_text (InputImage.grayF [[1/4, 1/4, 1, 1]])
        [⟨[1], [1/4, 1/2, 1/4]⟩] (-1) none = some [[true, true, true, true]] ∧
      ¬ (0 : ℚ) < -1 := by
  refine ⟨?_, by norm_num⟩
  with_unfolding_all rfl

/-! ### Helper lemmas: constant matrices through the pipeline -/

theorem getF_const (h w : ℕ) (c : F) {i j : ℕ} (hi : i < h) (hj : j < w) :
    getF (List.replicate h (List.replicate w c)) i j = c := by
  simp [getF, List.getD_eq_getElem?_getD, List.getElem?_replicate, hi, hj]

theorem reflectIdx_lt (n : ℕ) (i : ℤ) (hn : 0 < n) : reflectIdx n i < n := by
  have h2n : (0 : ℤ) < 2 * (n : ℤ) := by positivity
  have h1 : 0 ≤ i % (2 * (n : ℤ)) := Int.emod_nonneg i (ne_of_gt h2n)
  have h2 : i % (2 * (n : ℤ)) < 2 * (n : ℤ) := Int.emod_lt_of_pos i h2n
  have heq : reflectIdx n i = if (i % (2 * (n : ℤ))).toNat < n
      then (i % (2 * (n : ℤ))).toNat else 2 * n - 1 - (i % (2 * (n : ℤ))).toNat := rfl
  rw [heq]
  split <;> omega

theorem map_getD_range (k : List ℚ) :
    (List.range k.length).map (fun t => k.getD t 0) = k := by
  induction k with
  | nil => rfl
  | cons x xs ih =>
    rw [List.length_cons, List.range_succ_eq_map, List.map_cons, List.map_map]
    have hfun : ((fun t => (x :: xs).getD t 0) ∘ Nat.succ) = (fun t => xs.getD t 0) := by
      funext t
      simp [Function.comp, List.getD_cons_succ]
    rw [List.getD_cons_zero, hfun, ih]

theorem foldl_fadd_scaled (g : ℕ → ℚ) (c : ℚ) (L : List ℕ) : ∀ a : ℚ,
    L.foldl (fun acc t => fadd acc (some (g t * c))) (some a)
      = some (a + (L.map g).sum * c) := by
  induction L with
  | nil => intro a; simp [List.foldl_nil]
  | cons t ts ih =>
    intro a
    rw [List.foldl_cons]
    show ts.foldl _ (fadd (some a) (some (g t * c))) = _
    rw [show fadd (some a) (some (g t * c)) = some (a + g t * c) from rfl, ih]
    congr 1
    simp [List.map_cons, List.sum_cons]
    ring

theorem convEntry_const (k : List ℚ) (c : ℚ) (read : ℤ → F)
    (hread : ∀ z, read z = some c) (hk : k.sum = 1) :
    convEntry k read = some c := by
  unfold convEntry
  have hstep : (fun (acc : F) (t : ℕ) =>
      fadd acc (fqmul (k.getD t 0) (read ((t : ℤ) - (kradius k : ℤ)))))
      = (fun acc t => fadd acc (some (k.getD t 0 * c))) := by
    funext acc t
    rw [hread, fqmul]
  rw [hstep, foldl_fadd_scaled (fun t => k.getD t 0) c (List.range k.length) 0,
    map_getD_range, hk]
  norm_num

theorem rowLen_const (h w : ℕ) (c : F) (hh : 0 < h) :
    rowLen (List.replicate h (List.replicate w c)) = w := by
  cases h with
  | zero => omega
  | succ n => simp [rowLen, List.replicate_succ]

theorem convRows_const (k : List ℚ) (h w : ℕ) (c : ℚ) (hh : 0 < h) (hw : 0 < w)
    (hk : k.sum = 1) :
    convRows k (List.replicate h (List.replicate w (some c)))
      = List.replicate h (List.replicate w (some c)) := by
  simp only [convRows]
  rw [List.length_replicate, rowLen_const h w _ hh]
  have hinner : ∀ i ∈ List.range h,
      (List.range w).map (fun (j : ℕ) => convEntry k (fun off =>
        getF (List.replicate h (List.replicate w (some c))) i (reflectIdx w ((j : ℤ) + off))))
        = List.replicate w (some c) := by
    intro i hi
    rw [List.mem_range] at hi
    have hent : ∀ j ∈ List.range w, convEntry k (fun off =>
        getF (List.replicate h (List.replicate w (some c))) i (reflectIdx w ((j : ℤ) + off)))
        = some c := by
      intro j _
      exact convEntry_const k c _
        (fun z => getF_const h w (some c) hi (reflectIdx_lt w _ hw)) hk
    rw [List.map_congr_left hent, List.map_const', List.length_range]
  rw [List.map_congr_left hinner, List.map_const', List.length_range]

theorem convCols_const (k : List ℚ) (h w : ℕ) (c : ℚ) (hh : 0 < h) (hw : 0 < w)
    (hk : k.sum = 1) :
    convCols k (List.replicate h (List.replicate w (some c)))
      = List.replicate h (List.replicate w (some c)) := by
  simp only [convCols]
  rw [List.length_replicate, rowLen_const h w _ hh]
  have hinner : ∀ i ∈ List.range h,
      (List.range w).map (fun (j : ℕ) => convEntry k (fun off =>
        getF (List.replicate h (List.replicate w (some c))) (reflectIdx h ((i : ℤ) + off)) j))
        = List.replicate w (some c) := by
    intro i _
    have hent : ∀ j ∈ List.range w, convEntry k (fun off =>
        getF (List.replicate h (List.replicate w (some c))) (reflectIdx h ((i : ℤ) + off)) j)
        = some c := by
      intro j hj
      rw [List.mem_range] at hj
      exact convEntry_const k c _
        (fun z => getF_const h w (some c) (reflectIdx_lt h _ hh) hj) hk
    rw [List.map_congr_left hent, List.map_const', List.length_range]
  rw [List.map_congr_left hinner, List.map_const', List.length_range]

theorem blurW_const (k : List ℚ) (h w : ℕ) (c : ℚ) (hh : 0 < h) (hw : 0 < w)
    (hk : k.sum = 1) :
    blurW k (List.replicate h (List.replicate w (some c)))
      = List.replicate h (List.replicate w (some c)) := by
  unfold blurW
  rw [convCols_const k h w c hh hw hk, convRows_const k h w c hh hw hk]

theorem csEntry_self (c : ℚ) :
    csEntry true (some c) (some c) = if c = 0 then none else some 1 := by
  by_cases hc : c = 0 <;>
    simp [csEntry, fsub, clampLow0, fadd, fmul, fdiv, clampHigh1, hc,
      min_eq_left zero_le_one]

theorem get_off_const (h w : ℕ) (c : ℚ) (hh : 0 < h) (hw : 0 < w) :
    get_off_center_surround (List.replicate h (List.replicate w (some c)))
        (List.replicate h (List.replicate w (some c))) true false
      = List.replicate h (List.replicate w (csEntry true (some c) (some c))) := by
  rw [get_off_no_norm, List.length_replicate, rowLen_const h w _ hh]
  have hinner : ∀ i ∈ List.range h,
      (List.range w).map (fun j =>
        csEntry true (getF (List.replicate h (List.replicate w (some c))) i j)
          (getF (List.replicate h (List.replicate w (some c))) i j))
        = List.replicate w (csEntry true (some c) (some c)) := by
    intro i hi
    rw [List.mem_range] at hi
    have hent : ∀ j ∈ List.range w,
        csEntry true (getF (List.replicate h (List.replicate w (some c))) i j)
          (getF (List.replicate h (List.replicate w (some c))) i j)
        = csEntry true (some c) (some c) := by
      intro j hj
      rw [List.mem_range] at hj
      rw [getF_const h w (some c) hi hj]
    rw [List.map_congr_left hent, List.map_const', List.length_range]
  rw [List.map_congr_left hinner, List.map_const', List.length_range]

theorem maddF_const (h w : ℕ) (a b : F) :
    maddF (List.replicate h (List.replicate w a)) (List.replicate h (List.replicate w b))
      = List.replicate h (List.replicate w (fadd a b)) := by
  simp [maddF, List.zipWith_replicate]

theorem foldl_maddF_const (L : List Mat) (h w : ℕ) (v : F)
    (hL : ∀ M ∈ L, M = List.replicate h (List.replicate w v)) :
    ∀ u : F, ∃ u', L.foldl maddF (List.replicate h (List.replicate w u))
      = List.replicate h (List.replicate w u') := by
  induction L with
  | nil => intro u; exact ⟨u, rfl⟩
  | cons M Ms ih =>
    intro u
    rw [List.foldl_cons, hL M (List.mem_cons_self M Ms), maddF_const]
    exact ih (fun M' hM' => hL M' (List.mem_cons_of_mem _ hM')) (fadd u v)

theorem matFlatten_const (h w : ℕ) (u : F) :
    matFlatten (List.replicate h (List.replicate w u)) = List.replicate (h * w) u := by
  induction h with
  | zero => simp [matFlatten]
  | succ n ih =>
    rw [List.replicate_succ]
    show (List.replicate w u) ++ matFlatten (List.replicate n (List.replicate w u)) = _
    rw [ih, ← List.replicate_add]
    congr 1
    ring

theorem foldl_fmin_self (m : ℕ) (u : F) : (List.replicate m u).foldl fmin u = u := by
  induction m with
  | zero => rfl
  | succ n ih =>
    rw [List.replicate_succ, List.foldl_cons]
    have : fmin u u = u := by cases u <;> simp [fmin]
    rw [this, ih]

theorem foldl_fmax_self (m : ℕ) (u : F) : (List.replicate m u).foldl fmax u = u := by
  induction m with
  | zero => rfl
  | succ n ih =>
    rw [List.replicate_succ, List.foldl_cons]
    have : fmax u u = u := by cases u <;> simp [fmax]
    rw [this, ih]

theorem listFMin_const (n : ℕ) (u : F) (hn : 0 < n) :
    listFMin (List.replicate n u) = u := by
  cases n with
  | zero => omega
  | succ m =>
    rw [List.replicate_succ]
    exact foldl_fmin_self m u

theorem listFMax_const (n : ℕ) (u : F) (hn : 0 < n) :
    listFMax (List.replicate n u) = u := by
  cases n with
  | zero => omega
  | succ m =>
    rw [List.replicate_succ]
    exact foldl_fmax_self m u

theorem minMaxNormalize_const (h w : ℕ) (u : F) (hh : 0 < h) (hw : 0 < w) :
    minMaxNormalize (List.replicate h (List.replicate w u))
      = List.replicate h (List.replicate w (none : F)) := by
  have hmin : amin (List.replicate h (List.replicate w u)) = u := by
    unfold amin
    rw [matFlatten_const]
    exact listFMin_const _ _ (by positivity)
  have hmax : amax (List.replicate h (List.replicate w u)) = u := by
    unfold amax
    rw [matFlatten_const]
    exact listFMax_const _ _ (by positivity)
  simp only [minMaxNormalize, hmin, hmax]
  rw [List.map_replicate, List.map_replicate]
  have : fdiv (fsub u u) (fsub u u) = none := by
    cases u <;> simp [fsub, fdiv]
  rw [this]

theorem seqMat_const_none (h w : ℕ) (hh : 0 < h) (hw : 0 < w) :
    seqMat (List.replicate h (List.replicate w (none : F))) = none := by
  cases h with
  | zero => omega
  | succ n =>
    cases w with
    | zero => omega
    | succ m =>
      rw [List.replicate_succ, List.replicate_succ]
      unfold seqMat
      rw [List.mapM_cons, List.mapM_cons]
      simp

/-! ### Claim C3 -/

theorem combinedResponse_const (scales : List Scale) (h w : ℕ) (c : ℚ)
    (hh : 0 < h) (hw : 0 < w) (hsc : scales ≠ [])
    (hks : ∀ sc ∈ scales, sc.kernel_center.sum = 1 ∧ sc.kernel_surround.sum = 1) :
    combinedResponse scales (List.replicate h (List.replicate w (some c)))
      = List.replicate h (List.replicate w (none : F)) := by
  have hresp : ∀ M ∈ perScaleResponses scales (List.replicate h (List.replicate w (some c))),
      M = List.replicate h (List.replicate w (csEntry true (some c) (some c))) := by
    intro M hM
    obtain ⟨sc, hsc', rfl⟩ := List.mem_map.mp hM
    rw [blurW_const _ h w c hh hw (hks sc hsc').1, blurW_const _ h w c hh hw (hks sc hsc').2,
      get_off_const h w c hh hw]
  cases hps : perScaleResponses scales (List.replicate h (List.replicate w (some c))) with
  | nil =>
    exfalso
    apply hsc
    have hlen : scales.length = 0 := by
      simpa [perScaleResponses] using congrArg List.length hps
    exact List.length_eq_zero.mp hlen
  | cons m0 rest =>
    unfold combinedResponse
    rw [hps]
    show minMaxNormalize (rest.foldl maddF m0)
      = List.replicate h (List.replicate w (none : F))
    have h0 : m0 = List.replicate h (List.replicate w (csEntry true (some c) (some c))) :=
      hresp m0 (by rw [hps]; exact List.mem_cons_self _ _)
    obtain ⟨u', hu'⟩ := foldl_maddF_const rest h w _
      (fun M hM => hresp M (by rw [hps]; exact List.mem_cons_of_mem _ hM))
      (csEntry true (some c) (some c))
    rw [h0, hu', minMaxNormalize_const h w u' hh hw]

/-- Claim C3 (amended): the pipeline does NOT detect a constant summed
response map.  On a completely uniform image every per-scale OFF response is
constant, the summed map is constant, and the min-max normalization divides
by zero: every entry of the normalized combined response is the undefined
value NaN.  The subsequent call to `threshold_otsu` then fails on the
non-finite data (modelled by the `none` result), so the pipeline neither
raises a DegenerateImage error nor returns an all-background mask. -/
theorem uniform_image_response_undefined (h w : ℕ) (c : ℚ) (scales : List Scale)
    (b : ℚ) (rm : Option ℕ) (hh : 0 < h) (hw : 0 < w) (hsc : scales ≠ [])
    (hks : ∀ sc ∈ scales, sc.kernel_center.sum = 1 ∧ sc.kernel_surround.sum = 1) :
    combinedResponse scales
        (grayscaleStep (InputImage.grayF (List.replicate h (List.replicate w c))))
        = List.replicate h (List.replicate w (none : F))
      ∧ binarize_text (InputImage.grayF (List.replicate h (List.replicate w c)))
          scales b rm = none := by
  have himg : grayscaleStep (InputImage.grayF (List.replicate h (List.replicate w c)))
      = List.replicate h (List.replicate w (some c)) := by
    simp [grayscaleStep, List.map_replicate]
  have hcomb := combinedResponse_const scales h w c hh hw hsc hks
  refine ⟨by rw [himg, hcomb], ?_⟩
  have hnz : h * w ≠ 0 := by positivity
  unfold binarize_text
  rw [if_neg (by simpa [List.isEmpty_iff] using hsc)]
  simp only [himg, hcomb]
  rw [matFlatten_const, seqMat_const_none h w hh hw]
  simp [List.isEmpty_iff, List.replicate_eq_nil_iff, hnz]

theorem uniform_image_response_undefined_witness :
    combinedResponse [⟨[(1 : ℚ)], [1]⟩]
        (grayscaleStep (InputImage.grayF (List.replicate 2 (List.replicate 2 (5 : ℚ)))))
        = List.replicate 2 (List.replicate 2 (none : F))
      ∧ binarize_text (InputImage.grayF (List.replicate 2 (List.replicate 2 (5 : ℚ))))
          [⟨[(1 : ℚ)], [1]⟩] 3 none = none :=
  uniform_image_response_undefined 2 2 5 [⟨[1], [1]⟩] 3 none (by norm_num) (by norm_num)
    (by simp) (by intro sc hsc; fin_cases hsc; exact ⟨by norm_num, by norm_num⟩)

set_option maxRecDepth 100000 in
/-- Claim C3 (counterexample): on the uniform 2×2 image of value 1/2 (a
degenerate input), the combined response map consists entirely of undefined
NaN values — the min-max normalization divided by zero — and the pipeline
fails with a numeric error (modelled `none`), not with a DegenerateImage
error and not with an all-background mask.  This contradicts the claim that
the pipeline never divides by zero and never produces undefined values. -/
theorem degenerate_image_counterexample :
    combinedResponse [⟨[1], [1/4, 1/2, 1/4]⟩]
        (grayscaleStep (InputImage.grayF [[1/2, 1/2], [1/2, 1/2]]))
        = [[none, none], [none, none]] ∧
      binarize_text (InputImage.grayF [[1/2, 1/2], [1/2, 1/2]])
        [⟨[1], [1/4, 1/2, 1/4]⟩] 1 (some 10) = none := by
  constructor
  · with_unfolding_all rfl
  · with_unfolding_all rfl

/-! ### Claim C6 -/

theorem fadd_assoc (x y z : F) : fadd (fadd x y) z = fadd x (fadd y z) := by
  cases x <;> cases y <;> cases z <;> simp [fadd, add_assoc]

theorem zipWith_fadd_assoc (a b c : List F) :
    List.zipWith fadd (List.zipWith fadd a b) c
      = List.zipWith fadd a (List.zipWith fadd b c) := by
  induction a generalizing b c with
  | nil => simp
  | cons x as ih =>
    cases b with
    | nil => simp
    | cons y bs =>
      cases c with
      | nil => simp
      | cons z cs => simp [fadd_assoc, ih]

theorem maddF_assoc (a b c : Mat) : maddF (maddF a b) c = maddF a (maddF b c) := by
  unfold maddF
  induction a generalizing b c with
  | nil => simp
  | cons x as ih =>
    cases b with
    | nil => simp
    | cons y bs =>
      cases c with
      | nil => simp
      | cons z cs => simp [zipWith_fadd_assoc, ih]

theorem elementwiseSum_madd_cons (a b : Mat) (l : List Mat) :
    elementwiseSum (maddF a b :: l) = maddF a (elementwiseSum (b :: l)) := by
  cases l with
  | nil => rfl
  | cons x xs =>
    show maddF (maddF a b) (elementwiseSum (x :: xs))
      = maddF a (elementwiseSum (b :: x :: xs))
    rw [maddF_assoc]
    rfl

theorem foldl_maddF_eq_elementwiseSum (rest : List Mat) : ∀ m0 : Mat,
    rest.foldl maddF m0 = elementwiseSum (m0 :: rest) := by
  induction rest with
  | nil => intro m0; rfl
  | cons r rs ih =>
    intro m0
    rw [List.foldl_cons, ih (maddF m0 r), elementwiseSum_madd_cons]
    rfl

theorem fmin_eq_some (a b : F) (y : ℚ) (h : fmin a b = some y) :
    ∃ xa xb, a = some xa ∧ b = some xb ∧ y = min xa xb := by
  cases a with
  | none => simp [fmin] at h
  | some xa =>
    cases b with
    | none => simp [fmin] at h
    | some xb => exact ⟨xa, xb, rfl, rfl, (Option.some.inj h).symm⟩

theorem fmax_eq_some (a b : F) (y : ℚ) (h : fmax a b = some y) :
    ∃ xa xb, a = some xa ∧ b = some xb ∧ y = max xa xb := by
  cases a with
  | none => simp [fmax] at h
  | some xa =>
    cases b with
    | none => simp [fmax] at h
    | some xb => exact ⟨xa, xb, rfl, rfl, (Option.some.inj h).symm⟩

theorem foldl_fmin_ge (as : List F) : ∀ (a : F) (q : ℚ), as.foldl fmin a = some q →
    (∃ x, a = some x ∧ q ≤ x) ∧ ∀ v ∈ as, ∃ x, v = some x ∧ q ≤ x := by
  induction as with
  | nil =>
    intro a q h
    exact ⟨⟨q, h, le_refl q⟩, by simp⟩
  | cons b bs ih =>
    intro a q h
    rw [List.foldl_cons] at h
    obtain ⟨⟨y, hy, hqy⟩, hbs⟩ := ih (fmin a b) q h
    obtain ⟨xa, xb, ha, hb, hymin⟩ := fmin_eq_some a b y hy
    subst hymin
    refine ⟨⟨xa, ha, le_trans hqy (min_le_left xa xb)⟩, ?_⟩
    intro v hv
    rcases List.mem_cons.mp hv with rfl | hv'
    · exact ⟨xb, hb, le_trans hqy (min_le_right xa xb)⟩
    · exact hbs v hv'

theorem foldl_fmax_le (as : List F) : ∀ (a : F) (q : ℚ), as.foldl fmax a = some q →
    (∃ x, a = some x ∧ x ≤ q) ∧ ∀ v ∈ as, ∃ x, v = some x ∧ x ≤ q := by
  induction as with
  | nil =>
    intro a q h
    exact ⟨⟨q, h, le_refl q⟩, by simp⟩
  | cons b bs ih =>
    intro a q h
    rw [List.foldl_cons] at h
    obtain ⟨⟨y, hy, hqy⟩, hbs⟩ := ih (fmax a b) q h
    obtain ⟨xa, xb, ha, hb, hymax⟩ := fmax_eq_some a b y hy
    subst hymax
    refine ⟨⟨xa, ha, le_trans (le_max_left xa xb) hqy⟩, ?_⟩
    intro v hv
    rcases List.mem_cons.mp hv with rfl | hv'
    · exact ⟨xb, hb, le_trans (le_max_right xa xb) hqy⟩
    · exact hbs v hv'

theorem foldl_fmin_attained (as : List F) : ∀ (a : F) (q : ℚ),
    as.foldl fmin a = some q → a = some q ∨ some q ∈ as := by
  induction as with
  | nil => intro a q h; exact Or.inl h
  | cons b bs ih =>
    intro a q h
    rw [List.foldl_cons] at h
    rcases ih (fmin a b) q h with hin | hmem
    · obtain ⟨xa, xb, ha, hb, hy⟩ := fmin_eq_some a b q hin
      rcases le_total xa xb with hle | hle
      · left
        rw [ha, hy, min_eq_left hle]
      · right
        rw [hy, min_eq_right hle, ← hb]
        exact List.mem_cons_self b bs
    · exact Or.inr (List.mem_cons_of_mem b hmem)

theorem foldl_fmax_attained (as : List F) : ∀ (a : F) (q : ℚ),
    as.foldl fmax a = some q → a = some q ∨ some q ∈ as := by
  induction as with
  | nil => intro a q h; exact Or.inl h
  | cons b bs ih =>
    intro a q h
    rw [List.foldl_cons] at h
    rcases ih (fmax a b) q h with hin | hmem
    · obtain ⟨xa, xb, ha, hb, hy⟩ := fmax_eq_some a b q hin
      rcases le_total xa xb with hle | hle
      · right
        rw [hy, max_eq_right hle, ← hb]
        exact List.mem_cons_self b bs
      · left
        rw [ha, hy, max_eq_left hle]
    · exact Or.inr (List.mem_cons_of_mem b hmem)

theorem listFMin_facts (l : List F) (q : ℚ) (h : listFMin l = some q) :
    (∀ v ∈ l, ∃ x, v = some x ∧ q ≤ x) ∧ some q ∈ l := by
  cases l with
  | nil => simp [listFMin] at h
  | cons a as =>
    have h' : as.foldl fmin a = some q := h
    obtain ⟨⟨xa, hxa, hq⟩, hall⟩ := foldl_fmin_ge as a q h'
    refine ⟨?_, ?_⟩
    · intro v hv
      rcases List.mem_cons.mp hv with rfl | hv'
      · exact ⟨xa, hxa, hq⟩
      · exact hall v hv'
    · rcases foldl_fmin_attained as a q h' with ha | hmem
      · rw [← ha]
        exact List.mem_cons_self a as
      · exact List.mem_cons_of_mem a hmem

theorem listFMax_facts (l : List F) (q : ℚ) (h : listFMax l = some q) :
    (∀ v ∈ l, ∃ x, v = some x ∧ x ≤ q) ∧ some q ∈ l := by
  cases l with
  | nil => simp [listFMax] at h
  | cons a as =>
    have h' : as.foldl fmax a = some q := h
    obtain ⟨⟨xa, hxa, hq⟩, hall⟩ := foldl_fmax_le as a q h'
    refine ⟨?_, ?_⟩
    · intro v hv
      rcases List.mem_cons.mp hv with rfl | hv'
      · exact ⟨xa, hxa, hq⟩
      · exact hall v hv'
    · rcases foldl_fmax_attained as a q h' with ha | hmem
      · rw [← ha]
        exact List.mem_cons_self a as
      · exact List.mem_cons_of_mem a hmem

theorem listFMin_eq_of (l : List F) (q0 : ℚ)
    (hall : ∀ v ∈ l, ∃ x, v = some x ∧ q0 ≤ x) (hmem : some q0 ∈ l) :
    listFMin l = some q0 := by
  cases l with
  | nil => simp at hmem
  | cons a as =>
    show as.foldl fmin a = some q0
    have haux : ∀ (bs : List F) (a' : F), (∃ xa, a' = some xa ∧ q0 ≤ xa) →
        (∀ v ∈ bs, ∃ x, v = some x ∧ q0 ≤ x) → (a' = some q0 ∨ some q0 ∈ bs) →
        bs.foldl fmin a' = some q0 := by
      intro bs
      induction bs with
      | nil =>
        intro a' _ _ hatt
        rcases hatt with h | h
        · exact h
        · simp at h
      | cons b bs' ih =>
        intro a' ⟨xa, hxa, hqa⟩ hallb hatt
        obtain ⟨xb, hxb, hqb⟩ := hallb b (List.mem_cons_self b bs')
        rw [List.foldl_cons]
        have hstep : fmin a' b = some (min xa xb) := by
          rw [hxa, hxb]
          rfl
        apply ih
        · exact ⟨min xa xb, hstep, le_min hqa hqb⟩
        · exact fun v hv => hallb v (List.mem_cons_of_mem b hv)
        · rcases hatt with ha' | hmem'
          · left
            rw [hstep]
            have : xa = q0 := by
              rw [hxa] at ha'
              exact Option.some.inj ha'
            rw [this, min_eq_left (this ▸ hqb)]
          · rcases List.mem_cons.mp hmem' with hb' | hmem''
            · left
              rw [hstep]
              have : xb = q0 := by
                rw [hxb] at hb'
                exact (Option.some.inj hb').symm
              rw [this, min_eq_right (this ▸ hqa)]
            · exact Or.inr hmem''
    apply haux as a (hall a (List.mem_cons_self a as))
      (fun v hv => hall v (List.mem_cons_of_mem a hv))
    rcases List.mem_cons.mp hmem with ha | hmem'
    · exact Or.inl ha.symm
    · exact Or.inr hmem'

theorem listFMax_eq_of (l : List F) (q0 : ℚ)
    (hall : ∀ v ∈ l, ∃ x, v = some x ∧ x ≤ q0) (hmem : some q0 ∈ l) :
    listFMax l = some q0 := by
  cases l with
  | nil => simp at hmem
  | cons a as =>
    show as.foldl fmax a = some q0
    have haux : ∀ (bs : List F) (a' : F), (∃ xa, a' = some xa ∧ xa ≤ q0) →
        (∀ v ∈ bs, ∃ x, v = some x ∧ x ≤ q0) → (a' = some q0 ∨ some q0 ∈ bs) →
        bs.foldl fmax a' = some q0 := by
      intro bs
      induction bs with
      | nil =>
        intro a' _ _ hatt
        rcases hatt with h | h
        · exact h
        · simp at h
      | cons b bs' ih =>
        intro a' ⟨xa, hxa, hqa⟩ hallb hatt
        obtain ⟨xb, hxb, hqb⟩ := hallb b (List.mem_cons_self b bs')
        rw [List.foldl_cons]
        have hstep : fmax a' b = some (max xa xb) := by
          rw [hxa, hxb]
          rfl
        apply ih
        · exact ⟨max xa xb, hstep, max_le hqa hqb⟩
        · exact fun v hv => hallb v (List.mem_cons_of_mem b hv)
        · rcases hatt with ha' | hmem'
          · left
            rw [hstep]
            have : xa = q0 := by
              rw [hxa] at ha'
              exact Option.some.inj ha'
            rw [this, max_eq_left (this ▸ hqb)]
          · rcases List.mem_cons.mp hmem' with hb' | hmem''
            · left
              rw [hstep]
              have : xb = q0 := by
                rw [hxb] at hb'
                exact (Option.some.inj hb').symm
              rw [this, max_eq_right (this ▸ hqa)]
            · exact Or.inr hmem''
    apply haux as a (hall a (List.mem_cons_self a as))
      (fun v hv => hall v (List.mem_cons_of_mem a hv))
    rcases List.mem_cons.mp hmem with ha | hmem'
    · exact Or.inl ha.symm
    · exact Or.inr hmem'

/-- Claim C6: for every non-empty scale list, the combined response of the
pipeline equals the min-max normalization of the elementwise sum of the
per-scale OFF responses (computed with invert=true and without per-scale
normalization — `elementwiseSum` is the spec-side elementwise sum, compared
here against the code's copy-then-add-in-place fold), and whenever the
summed map is defined and non-constant (its minimum and maximum are finite
and differ), the normalized result attains minimum exactly 0 and maximum
exactly 1. -/
theorem combined_response_spec (scales : List Scale) (image : Mat) (qlo qhi : ℚ)
    (hsc : scales ≠ [])
    (hlo : amin (elementwiseSum (perScaleResponses scales image)) = some qlo)
    (hhi : amax (elementwiseSum (perScaleResponses scales image)) = some qhi)
    (hne : qlo ≠ qhi) :
    combinedResponse scales image
        = minMaxNormalize (elementwiseSum (perScaleResponses scales image))
      ∧ amin (combinedResponse scales image) = some 0
      ∧ amax (combinedResponse scales image) = some 1 := by
  have hpart1 : combinedResponse scales image
      = minMaxNormalize (elementwiseSum (perScaleResponses scales image)) := by
    cases hps : perScaleResponses scales image with
    | nil =>
      exfalso
      apply hsc
      have hlen : scales.length = 0 := by
        simpa [perScaleResponses] using congrArg List.length hps
      exact List.length_eq_zero.mp hlen
    | cons m0 rest =>
      unfold combinedResponse
      rw [hps]
      show minMaxNormalize (rest.foldl maddF m0) = _
      rw [foldl_maddF_eq_elementwiseSum]
  set S := elementwiseSum (perScaleResponses scales image) with hS
  obtain ⟨hallmin, hmemmin⟩ := listFMin_facts (matFlatten S) qlo hlo
  obtain ⟨hallmax, hmemmax⟩ := listFMax_facts (matFlatten S) qhi hhi
  have hlohi : qlo ≤ qhi := by
    obtain ⟨x, hx, hxle⟩ := hallmax (some qlo) hmemmin
    rw [Option.some.injEq] at hx
    rw [hx]
    exact hxle
  have hD : 0 < qhi - qlo := sub_pos.mpr (lt_of_le_of_ne hlohi hne)
  have hDne : qhi - qlo ≠ 0 := ne_of_gt hD
  have hflat : matFlatten (minMaxNormalize S)
      = (matFlatten S).map (fun v => fdiv (fsub v (some qlo)) (some (qhi - qlo))) := by
    simp only [minMaxNormalize, hlo, hhi]
    show matFlatten (S.map (List.map
      (fun v => fdiv (fsub v (some qlo)) (fsub (some qhi) (some qlo))))) = _
    have hsub : fsub (some qhi) (some qlo) = some (qhi - qlo) := rfl
    rw [hsub]
    exact (List.map_flatten _ S).symm
  have hmin2 : amin (minMaxNormalize S) = some 0 := by
    show listFMin (matFlatten (minMaxNormalize S)) = some 0
    rw [hflat]
    apply listFMin_eq_of
    · intro v hv
      obtain ⟨u, hu, rfl⟩ := List.mem_map.mp hv
      obtain ⟨x, rfl, hqx⟩ := hallmin u hu
      refine ⟨(x - qlo) / (qhi - qlo), ?_, ?_⟩
      · simp [fsub, fdiv, hDne]
      · exact div_nonneg (sub_nonneg.mpr hqx) (le_of_lt hD)
    · refine List.mem_map.mpr ⟨some qlo, hmemmin, ?_⟩
      simp [fsub, fdiv, hDne]
  have hmax2 : amax (minMaxNormalize S) = some 1 := by
    show listFMax (matFlatten (minMaxNormalize S)) = some 1
    rw [hflat]
    apply listFMax_eq_of
    · intro v hv
      obtain ⟨u, hu, rfl⟩ := List.mem_map.mp hv
      obtain ⟨x, rfl, hqx⟩ := hallmax u hu
      refine ⟨(x - qlo) / (qhi - qlo), ?_, ?_⟩
      · simp [fsub, fdiv, hDne]
      · rw [div_le_one hD]
        linarith
    · refine List.mem_map.mpr ⟨some qhi, hmemmax, ?_⟩
      simp [fsub, fdiv, hDne, div_self hDne]
  exact ⟨hpart1, by rw [hpart1]; exact hmin2, by rw [hpart1]; exact hmax2⟩

set_option maxRecDepth 100000 in
theorem combined_response_spec_witness :
    (307/320 : ℚ) ≠ 2 ∧
      (combinedResponse [⟨[1], [1/4, 1/2, 1/4]⟩, ⟨[1], [1/2, 1/2]⟩]
          [[some (1/4), some (1/4), some 1, some 1]]
          = minMaxNormalize (elementwiseSum (perScaleResponses
              [⟨[1], [1/4, 1/2, 1/4]⟩, ⟨[1], [1/2, 1/2]⟩]
              [[some (1/4), some (1/4), some 1, some 1]]))
        ∧ amin (combinedResponse [⟨[1], [1/4, 1/2, 1/4]⟩, ⟨[1], [1/2, 1/2]⟩]
            [[some (1/4), some (1/4), some 1, some 1]]) = some 0
        ∧ amax (combinedResponse [⟨[1], [1/4, 1/2, 1/4]⟩, ⟨[1], [1/2, 1/2]⟩]
            [[some (1/4), some (1/4), some 1, some 1]]) = some 1) :=
  ⟨by norm_num,
    combined_response_spec [⟨[1], [1/4, 1/2, 1/4]⟩, ⟨[1], [1/2, 1/2]⟩]
      [[some (1/4), some (1/4), some 1, some 1]] (307/320) 2
      (by simp)
      (by with_unfolding_all rfl)
      (by with_unfolding_all rfl)
      (by norm_num)⟩

/-! ### Claims C2 and C9: connected component filtering -/

theorem subset_expandStep (m : List (List Bool)) (S : Finset Pos) : S ⊆ expandStep m S :=
  Finset.subset_union_left

theorem expandStep_mono (m : List (List Bool)) {S T : Finset Pos} (h : S ⊆ T) :
    expandStep m S ⊆ expandStep m T := by
  intro q hq
  rcases Finset.mem_union.mp hq with hq | hq
  · exact Finset.mem_union_left _ (h hq)
  · obtain ⟨hqall, hgb, p, hp, hadj⟩ := Finset.mem_filter.mp hq
    exact Finset.mem_union_right _ (Finset.mem_filter.mpr ⟨hqall, hgb, p, h hp, hadj⟩)

theorem iterate_expand_mono (m : List (List Bool)) (p : Pos) (k : ℕ) :
    (expandStep m)^[k] {p} ⊆ (expandStep m)^[k + 1] {p} := by
  induction k with
  | zero => exact subset_expandStep m {p}
  | succ j ih =>
    rw [Function.iterate_succ_apply', Function.iterate_succ_apply']
    exact expandStep_mono m ih

theorem iterate_expand_le (m : List (List Bool)) (p : Pos) {j k : ℕ} (h : j ≤ k) :
    (expandStep m)^[j] {p} ⊆ (expandStep m)^[k] {p} := by
  induction k with
  | zero =>
    rw [Nat.le_zero.mp h]
  | succ i ih =>
    rcases Nat.lt_or_ge j (i + 1) with hlt | hge
    · exact subset_trans (ih (by omega)) (iterate_expand_mono m p i)
    · rw [Nat.le_antisymm h hge]

theorem iterate_expand_stable (m : List (List Bool)) (p : Pos) (k : ℕ)
    (h : (expandStep m)^[k + 1] {p} = (expandStep m)^[k] {p}) :
    ∀ j, k ≤ j → (expandStep m)^[j] {p} = (expandStep m)^[k] {p} := by
  intro j hj
  induction j, hj using Nat.le_induction with
  | base => rfl
  | succ i hi ih =>
    rw [Function.iterate_succ_apply', ih]
    have hsucc := Function.iterate_succ_apply' (expandStep m) k ({p} : Finset Pos)
    rw [← hsucc, h]

theorem iterate_expand_card (m : List (List Bool)) (p : Pos) (k : ℕ)
    (h : ∀ j < k, (expandStep m)^[j + 1] {p} ≠ (expandStep m)^[j] {p}) :
    k + 1 ≤ ((expandStep m)^[k] {p}).card := by
  induction k with
  | zero => simp
  | succ i ih =>
    have h1 : i + 1 ≤ ((expandStep m)^[i] {p}).card :=
      ih (fun j hj => h j (by omega))
    have h2 : (expandStep m)^[i] {p} ⊂ (expandStep m)^[i + 1] {p} :=
      (Finset.ssubset_iff_subset_ne).mpr ⟨iterate_expand_mono m p i, (h i (by omega)).symm⟩
    have h3 := Finset.card_lt_card h2
    omega

theorem iterate_expand_bounded (m : List (List Bool)) (p : Pos) (k : ℕ) :
    (expandStep m)^[k] {p} ⊆ insert p (allPos m.length (rowLenB m)) := by
  induction k with
  | zero =>
    intro q hq
    rw [Finset.mem_singleton.mp hq]
    exact Finset.mem_insert_self p _
  | succ i ih =>
    rw [Function.iterate_succ_apply']
    intro q hq
    rcases Finset.mem_union.mp hq with hq | hq
    · exact ih hq
    · exact Finset.mem_insert_of_mem (Finset.mem_of_mem_filter q hq)

theorem exists_expand_fixpoint (m : List (List Bool)) (p : Pos) :
    ∃ k ≤ m.length * rowLenB m, (expandStep m)^[k + 1] {p} = (expandStep m)^[k] {p} := by
  by_contra hcon
  push_neg at hcon
  set hw := m.length * rowLenB m with hhw
  have hall : ∀ j < hw + 1, (expandStep m)^[j + 1] {p} ≠ (expandStep m)^[j] {p} := by
    intro j hj
    exact hcon j (by omega)
  have h1 := iterate_expand_card m p (hw + 1) hall
  have h2 := Finset.card_le_card (iterate_expand_bounded m p (hw + 1))
  have h3 : (insert p (allPos m.length (rowLenB m))).card
      ≤ (allPos m.length (rowLenB m)).card + 1 := Finset.card_insert_le _ _
  have h4 : (allPos m.length (rowLenB m)).card = hw := by
    simp [allPos, hhw]
  omega

theorem expandStep_comp (m : List (List Bool)) (p : Pos) :
    expandStep m (comp m p) = comp m p := by
  obtain ⟨k, hk, hfix⟩ := exists_expand_fixpoint m p
  have hstab := iterate_expand_stable m p k hfix
  have h1 : comp m p = (expandStep m)^[k] {p} :=
    hstab (m.length * rowLenB m + 1) (by omega)
  rw [h1]
  have hsucc := Function.iterate_succ_apply' (expandStep m) k ({p} : Finset Pos)
  rw [← hsucc, hfix]

theorem mem_comp_self (m : List (List Bool)) (p : Pos) : p ∈ comp m p :=
  iterate_expand_le m p (Nat.zero_le _) (Finset.mem_singleton_self p)

theorem getB_true_bounds (m : List (List Bool)) (q : Pos) (h : getB m q = true) :
    q.1 < m.length ∧ q.2 < (m.getD q.1 []).length := by
  constructor
  · by_contra hq1
    push_neg at hq1
    have : m.getD q.1 [] = [] := by
      rw [List.getD_eq_getElem?_getD, List.getElem?_eq_none (by omega)]
      rfl
    rw [getB, this] at h
    simp at h
  · by_contra hq2
    push_neg at hq2
    rw [getB, List.getD_eq_getElem?_getD, List.getElem?_eq_none hq2] at h
    simp at h

theorem getB_true_mem_allPos (m : List (List Bool)) (q : Pos)
    (hrect : isRect m = true) (h : getB m q = true) :
    q ∈ allPos m.length (rowLenB m) := by
  obtain ⟨h1, h2⟩ := getB_true_bounds m q h
  have hrow : m.getD q.1 [] ∈ m := by
    rw [List.getD_eq_getElem?_getD]
    rw [List.getElem?_eq_getElem h1]
    exact List.getElem_mem h1
  have hlen : (m.getD q.1 []).length = rowLenB m := by
    have hbeq := List.all_eq_true.mp hrect _ hrow
    simpa using hbeq
  show q ∈ Finset.range m.length ×ˢ Finset.range (rowLenB m)
  exact Finset.mem_product.mpr ⟨Finset.mem_range.mpr h1, Finset.mem_range.mpr (hlen ▸ h2)⟩

theorem reaches_of_mem_iterate (m : List (List Bool)) (p : Pos) (k : ℕ) :
    ∀ q ∈ (expandStep m)^[k] {p}, reaches m p q := by
  induction k with
  | zero =>
    intro q hq
    rw [Finset.mem_singleton.mp hq]
    exact Relation.ReflTransGen.refl
  | succ i ih =>
    rw [Function.iterate_succ_apply']
    intro q hq
    rcases Finset.mem_union.mp hq with hq | hq
    · exact ih q hq
    · obtain ⟨_, hgb, a, ha, hadj⟩ := Finset.mem_filter.mp hq
      exact Relation.ReflTransGen.tail (ih a ha) ⟨hadj, hgb⟩

theorem mem_comp_of_reaches (m : List (List Bool)) (p q : Pos)
    (hrect : isRect m = true) (h : reaches m p q) : q ∈ comp m p := by
  induction h with
  | refl => exact mem_comp_self m p
  | tail hab hstep ih =>
    rw [← expandStep_comp m p]
    exact Finset.mem_union_right _ (Finset.mem_filter.mpr
      ⟨getB_true_mem_allPos m _ hrect hstep.2, hstep.2, _, ih, hstep.1⟩)

theorem mem_comp_iff_reaches (m : List (List Bool)) (p q : Pos)
    (hrect : isRect m = true) : q ∈ comp m p ↔ reaches m p q :=
  ⟨fun h => reaches_of_mem_iterate m p _ q h, mem_comp_of_reaches m p q hrect⟩

theorem getB_grid (h w : ℕ) (f : ℕ → ℕ → Bool) {i j : ℕ} (hi : i < h) (hj : j < w) :
    getB ((List.range h).map (fun a => (List.range w).map (fun b => f a b))) (i, j) = f i j := by
  simp [getB, List.getD_eq_getElem?_getD, List.getElem?_range hi, List.getElem?_range hj]

theorem getB_grid_oob (h w : ℕ) (f : ℕ → ℕ → Bool) {i j : ℕ} (hij : ¬ (i < h ∧ j < w)) :
    getB ((List.range h).map (fun a => (List.range w).map (fun b => f a b))) (i, j) = false := by
  unfold getB
  rcases Nat.lt_or_ge i h with hi | hi
  · have hj : w ≤ j := by omega
    have hnone : ((List.range w).map (fun b => f i b))[j]? = none :=
      List.getElem?_eq_none (by simpa using hj)
    simp [List.getD_eq_getElem?_getD, List.getElem?_range hi, hnone]
  · have hnone : ((List.range h).map
        (fun a => (List.range w).map (fun b => f a b)))[i]? = none :=
      List.getElem?_eq_none (by simpa using hi)
    simp [List.getD_eq_getElem?_getD, hnone]

theorem getB_rso (m : List (List Bool)) (n : ℕ) {i j : ℕ}
    (hi : i < m.length) (hj : j < rowLenB m) :
    getB (remove_small_objects m n) (i, j)
      = (getB m (i, j) && decide (n ≤ (comp m (i, j)).card)) := by
  unfold remove_small_objects
  exact getB_grid m.length (rowLenB m) _ hi hj

theorem getB_rso_oob (m : List (List Bool)) (n : ℕ) {i j : ℕ}
    (hij : ¬ (i < m.length ∧ j < rowLenB m)) :
    getB (remove_small_objects m n) (i, j) = false := by
  unfold remove_small_objects
  exact getB_grid_oob m.length (rowLenB m) _ hij

theorem component_eq_comp (m : List (List Bool)) (S : Finset Pos)
    (hrect : isRect m = true) (hS : IsComponent m S) {p : Pos} (hp : p ∈ S) :
    S = comp m p := by
  obtain ⟨hne, htrue, hclosed, hconn⟩ := hS
  apply Finset.Subset.antisymm
  · intro b hb
    exact mem_comp_of_reaches m p b hrect (hconn p hp b hb)
  · intro q hq
    have hreach := (mem_comp_iff_reaches m p q hrect).mp hq
    clear hq
    induction hreach with
    | refl => exact hp
    | tail hab hstep ih =>
      exact hclosed _ ih _ (getB_true_mem_allPos m _ hrect hstep.2) hstep.1 hstep.2

/-- Claim C2: for every rectangular boolean mask and every min_size, the
connected-component filter (`remove_small_objects`, 4-connectivity, as the
pipeline applies it to the foreground pixels) sets to false every pixel of
each maximal 4-connected group of true pixels whose pixel count is below
min_size, and leaves every pixel of each group of count at least min_size
unchanged.  In `binarize_text` the filter runs on the complemented mask
(`~remove_small_objects(~binary, ...)`), i.e. on the mask whose true pixels
are the foreground text, exactly as the claim reads. -/
theorem remove_small_objects_spec (m : List (List Bool)) (S : Finset Pos) (n : ℕ)
    (hrect : isRect m = true) (hS : IsComponent m S) :
    (S.card < n → ∀ p ∈ S, getB (remove_small_objects m n) p = false) ∧
    (n ≤ S.card → ∀ p ∈ S, getB (remove_small_objects m n) p = getB m p) := by
  have hbase : ∀ p ∈ S, getB (remove_small_objects m n) p
      = (getB m p && decide (n ≤ S.card)) := by
    intro p hp
    have htrue : getB m p = true := hS.2.1 p hp
    obtain ⟨h1, h2⟩ := getB_true_bounds m p htrue
    have hlen : (m.getD p.1 []).length = rowLenB m := by
      have hrow : m.getD p.1 [] ∈ m := by
        rw [List.getD_eq_getElem?_getD, List.getElem?_eq_getElem h1]
        exact List.getElem_mem h1
      have hbeq := List.all_eq_true.mp hrect _ hrow
      simpa using hbeq
    have hj : p.2 < rowLenB m := hlen ▸ h2
    have hcomp : S = comp m p := component_eq_comp m S hrect hS hp
    have := getB_rso m n h1 hj
    rw [show ((p.1, p.2) : Pos) = p from rfl] at this
    rw [this, ← hcomp]
  constructor
  · intro hlt p hp
    rw [hbase p hp]
    simp [Nat.not_le.mpr hlt]
  · intro hge p hp
    rw [hbase p hp]
    simp [hge]

theorem remove_small_objects_spec_witness :
    (isRect [[true, false], [false, false]] = true ∧
      Finset.card {((0 : ℕ), (0 : ℕ))} < 10) ∧
      getB (remove_small_objects [[true, false], [false, false]] 10) (0, 0) = false := by
  have hS : IsComponent [[true, false], [false, false]] {((0 : ℕ), (0 : ℕ))} := by
    refine ⟨⟨(0, 0), Finset.mem_singleton_self _⟩, ?_, ?_, ?_⟩
    · decide
    · decide
    · intro a ha b hb
      rw [Finset.mem_singleton.mp ha, Finset.mem_singleton.mp hb]
      exact Relation.ReflTransGen.refl
  exact ⟨⟨by decide, by decide⟩,
    (remove_small_objects_spec [[true, false], [false, false]] {((0 : ℕ), (0 : ℕ))} 10
      (by decide) hS).1 (by decide) (0, 0) (Finset.mem_singleton_self _)⟩

theorem adjB_symm (p q : Pos) (h : adjB p q = true) : adjB q p = true := by
  simp only [adjB, Bool.or_eq_true, Bool.and_eq_true, beq_iff_eq] at h ⊢
  omega

theorem reaches_symm (m : List (List Bool)) (p q : Pos)
    (hp : getB m p = true) (h : reaches m p q) : reaches m q p := by
  have haux : reaches m q p ∧ (q = p ∨ getB m q = true) := by
    induction h with
    | refl => exact ⟨Relation.ReflTransGen.refl, Or.inl rfl⟩
    | @tail a c hab hstep ih =>
      have hga : getB m a = true := by
        rcases ih.2 with rfl | hga
        · exact hp
        · exact hga
      exact ⟨Relation.ReflTransGen.head ⟨adjB_symm _ _ hstep.1, hga⟩ ih.1,
        Or.inr hstep.2⟩
  exact haux.1

theorem comp_eq_of_reaches (m : List (List Bool)) (p b : Pos)
    (hrect : isRect m = true) (hp : getB m p = true) (hr : reaches m p b) :
    comp m p = comp m b := by
  ext q
  rw [mem_comp_iff_reaches m p q hrect, mem_comp_iff_reaches m b q hrect]
  exact ⟨fun hq => Relation.ReflTransGen.trans (reaches_symm m p b hp hr) hq,
    fun hq => Relation.ReflTransGen.trans hr hq⟩

theorem getB_true_lt (m : List (List Bool)) (p : Pos) (hrect : isRect m = true)
    (h : getB m p = true) : p.1 < m.length ∧ p.2 < rowLenB m := by
  have hmem : p ∈ Finset.range m.length ×ˢ Finset.range (rowLenB m) :=
    getB_true_mem_allPos m p hrect h
  obtain ⟨h1, h2⟩ := Finset.mem_product.mp hmem
  exact ⟨Finset.mem_range.mp h1, Finset.mem_range.mp h2⟩

theorem rso_length (m : List (List Bool)) (n : ℕ) :
    (remove_small_objects m n).length = m.length := by
  simp [remove_small_objects]

theorem rowLenB_rso (m : List (List Bool)) (n : ℕ) (hh : 0 < m.length) :
    rowLenB (remove_small_objects m n) = rowLenB m := by
  obtain ⟨k, hk⟩ : ∃ k, m.length = k + 1 := ⟨m.length - 1, by omega⟩
  unfold remove_small_objects rowLenB
  rw [hk, List.range_succ_eq_map, List.map_cons, List.headD_cons]
  simp

theorem isRect_rso (m : List (List Bool)) (n : ℕ) :
    isRect (remove_small_objects m n) = true := by
  unfold isRect
  rw [List.all_eq_true]
  intro row hrow
  have hrow' := hrow
  unfold remove_small_objects at hrow'
  obtain ⟨i, hi, rfl⟩ := List.mem_map.mp hrow'
  have hh : 0 < m.length := by
    have := List.mem_range.mp hi
    omega
  simp [rowLenB_rso m n hh]

theorem getB_rso_le (m : List (List Bool)) (n : ℕ) (p : Pos)
    (h : getB (remove_small_objects m n) p = true) : getB m p = true := by
  by_cases hij : p.1 < m.length ∧ p.2 < rowLenB m
  · have h13 := getB_rso m n hij.1 hij.2
    rw [show ((p.1, p.2) : Pos) = p from rfl] at h13
    rw [h13] at h
    exact (Bool.and_eq_true_iff.mp h).1
  · have := getB_rso_oob m n hij
    rw [show ((p.1, p.2) : Pos) = p from rfl] at this
    rw [this] at h
    exact absurd h (by simp)

theorem reaches_rso (m : List (List Bool)) (n : ℕ) (hrect : isRect m = true) (p : Pos)
    (hp : getB (remove_small_objects m n) p = true) :
    ∀ q, reaches (remove_small_objects m n) p q ↔ reaches m p q := by
  have hpm : getB m p = true := getB_rso_le m n p hp
  have hplt := getB_true_lt m p hrect hpm
  have hcard : n ≤ (comp m p).card := by
    have h13 := getB_rso m n hplt.1 hplt.2
    rw [show ((p.1, p.2) : Pos) = p from rfl] at h13
    rw [h13] at hp
    exact of_decide_eq_true (Bool.and_eq_true_iff.mp hp).2
  intro q
  constructor
  · exact fun h => Relation.ReflTransGen.mono
      (fun a b hab => ⟨hab.1, getB_rso_le m n b hab.2⟩) h
  · intro h
    induction h with
    | refl => exact Relation.ReflTransGen.refl
    | @tail a c hab hstep ih =>
      have hreach_b : reaches m p c := Relation.ReflTransGen.tail hab hstep
      have hcompb : comp m c = comp m p :=
        (comp_eq_of_reaches m p c hrect hpm hreach_b).symm
      have hgbm : getB m c = true := hstep.2
      have hlt := getB_true_lt m c hrect hgbm
      have hgb' : getB (remove_small_objects m n) c = true := by
        have h13 := getB_rso m n hlt.1 hlt.2
        rw [show ((c.1, c.2) : Pos) = c from rfl] at h13
        rw [h13, hgbm, hcompb]
        simp [hcard]
      exact Relation.ReflTransGen.tail ih ⟨hstep.1, hgb'⟩

theorem comp_rso_eq (m : List (List Bool)) (n : ℕ) (hrect : isRect m = true) (p : Pos)
    (hp : getB (remove_small_objects m n) p = true) :
    comp (remove_small_objects m n) p = comp m p := by
  ext q
  rw [mem_comp_iff_reaches _ p q (isRect_rso m n), mem_comp_iff_reaches m p q hrect]
  exact reaches_rso m n hrect p hp q

theorem grid_congr (h w : ℕ) (f g : ℕ → ℕ → Bool)
    (hfg : ∀ i < h, ∀ j < w, f i j = g i j) :
    (List.range h).map (fun i => (List.range w).map (fun j => f i j))
      = (List.range h).map (fun i => (List.range w).map (fun j => g i j)) := by
  apply List.map_congr_left
  intro i hi
  apply List.map_congr_left
  intro j hj
  exact hfg i (List.mem_range.mp hi) j (List.mem_range.mp hj)

/-- Claim C9: the connected-component filtering step is idempotent — for every
rectangular boolean mask and every min_size, filtering an already-filtered
mask with the same min_size returns it unchanged.  Filtering removes whole
4-connected components, so the components of the filtered mask are exactly
the surviving components of the original, each of size at least min_size,
and the second pass removes nothing. -/
theorem remove_small_objects_idempotent (m : List (List Bool)) (n : ℕ)
    (hrect : isRect m = true) :
    remove_small_objects (remove_small_objects m n) n = remove_small_objects m n := by
  rcases Nat.eq_zero_or_pos m.length with h0 | h0
  · have h1 : remove_small_objects m n = [] := by
      unfold remove_small_objects
      rw [h0]
      rfl
    rw [h1]
    rfl
  · set m' := remove_small_objects m n with hm'
    have hlen : m'.length = m.length := rso_length m n
    have hwl : rowLenB m' = rowLenB m := rowLenB_rso m n h0
    have lhs_eq : remove_small_objects m' n
        = (List.range m.length).map (fun i => (List.range (rowLenB m)).map (fun j =>
            getB m' (i, j) && decide (n ≤ (comp m' (i, j)).card))) := by
      unfold remove_small_objects
      rw [hlen, hwl]
    have rhs_eq : m' = (List.range m.length).map (fun i =>
        (List.range (rowLenB m)).map (fun j =>
          getB m (i, j) && decide (n ≤ (comp m (i, j)).card))) := by
      rw [hm']
      rfl
    have hpoint : ∀ i < m.length, ∀ j < rowLenB m,
        (getB m' (i, j) && decide (n ≤ (comp m' (i, j)).card))
          = (getB m (i, j) && decide (n ≤ (comp m (i, j)).card)) := by
      intro i hi j hj
      have h13 : getB m' (i, j)
          = (getB m (i, j) && decide (n ≤ (comp m (i, j)).card)) := getB_rso m n hi hj
      cases hb : getB m' (i, j) with
      | false =>
        rw [← h13, hb]
        simp
      | true =>
        have hcomp : comp m' (i, j) = comp m (i, j) := comp_rso_eq m n hrect (i, j) hb
        have hcard : n ≤ (comp m (i, j)).card := by
          rw [h13] at hb
          exact of_decide_eq_true (Bool.and_eq_true_iff.mp hb).2
        rw [hcomp, ← h13, hb]
        simp [hcard]
    calc remove_small_objects m' n
        = (List.range m.length).map (fun i => (List.range (rowLenB m)).map (fun j =>
            getB m' (i, j) && decide (n ≤ (comp m' (i, j)).card))) := lhs_eq
      _ = (List.range m.length).map (fun i => (List.range (rowLenB m)).map (fun j =>
            getB m (i, j) && decide (n ≤ (comp m (i, j)).card))) :=
          grid_congr m.length (rowLenB m) _ _ hpoint
      _ = m' := rhs_eq.symm

theorem remove_small_objects_idempotent_witness :
    isRect [[true, true, false], [false, true, false], [false, false, true]] = true ∧
      remove_small_objects (remove_small_objects
          [[true, true, false], [false, true, false], [false, false, true]] 2) 2
        = remove_small_objects
            [[true, true, false], [false, true, false], [false, false, true]] 2 :=
  ⟨by decide,
    remove_small_objects_idempotent
      [[true, true, false], [false, true, false], [false, false, true]] 2 (by decide)⟩

/-! ### Claim C10: frame property on the heap embedding -/

theorem readH_of_append (h t : Heap) (r : ℕ) (hr : r < h.length) :
    readH (h ++ t) r = readH h r := by
  unfold readH
  simp only [List.getD_eq_getElem?_getD]
  rw [List.getElem?_append_left hr]

theorem scaleLoop_preserves (rImage : ℕ) (scales : List Scale) :
    ∀ acc : Heap × List ℕ,
      acc.1.length ≤ (scales.foldl (scaleLoopStep rImage) acc).1.length ∧
      ∀ r < acc.1.length,
        readH (scales.foldl (scaleLoopStep rImage) acc).1 r = readH acc.1 r := by
  induction scales with
  | nil => exact fun acc => ⟨le_refl _, fun r _ => rfl⟩
  | cons sc rest ih =>
    intro acc
    rw [List.foldl_cons]
    have hstep : acc.1.length ≤ (scaleLoopStep rImage acc sc).1.length ∧
        ∀ r < acc.1.length, readH (scaleLoopStep rImage acc sc).1 r = readH acc.1 r := by
      constructor
      · show acc.1.length ≤ (((acc.1 ++ [_]) ++ [_]) ++ [_]).length
        simp
      · intro r hr
        show readH (((acc.1 ++ [_]) ++ [_]) ++ [_]) r = readH acc.1 r
        rw [readH_of_append _ _ _ (by simp; omega), readH_of_append _ _ _ (by simp; omega),
          readH_of_append _ _ _ hr]
    obtain ⟨hl2, hr2⟩ := ih (scaleLoopStep rImage acc sc)
    exact ⟨le_trans hstep.1 hl2,
      fun r hr => (hr2 r (lt_of_lt_of_le hr hstep.1)).trans (hstep.2 r hr)⟩

theorem addLoop_preserves (rAcc : ℕ) (rest : List ℕ) (n0 : ℕ) (hge : n0 ≤ rAcc) :
    ∀ h : Heap,
      h.length ≤ (rest.foldl (addLoopStep rAcc) h).length ∧
      ∀ r < n0, readH (rest.foldl (addLoopStep rAcc) h) r = readH h r := by
  induction rest with
  | nil => exact fun h => ⟨le_refl _, fun r _ => rfl⟩
  | cons ri rest' ih =>
    intro h
    rw [List.foldl_cons]
    have hstep : h.length ≤ (addLoopStep rAcc h ri).length ∧
        ∀ r < n0, readH (addLoopStep rAcc h ri) r = readH h r := by
      constructor
      · show h.length ≤ (h.set rAcc _).length
        rw [List.length_set]
      · intro r hr
        show readH (h.set rAcc _) r = readH h r
        unfold readH
        simp only [List.getD_eq_getElem?_getD]
        rw [List.getElem?_set_ne (by omega)]
    obtain ⟨hl2, hr2⟩ := ih (addLoopStep rAcc h ri)
    exact ⟨le_trans hstep.1 hl2,
      fun r hr => (hr2 r hr).trans (hstep.2 r hr)⟩

/-- Claim C10: `binarize_text` never modifies the caller's image buffer.  In
the state-passing embedding of the function's statements — where the
grayscale conversion reads the input buffer and allocates
(`image_array.copy()` feeds `rgb2gray` / `img_as_float`), each scale
iteration allocates its blur and response buffers, and the only in-place
write (`off_cs_cells += ...`) targets the accumulator freshly allocated by
`ls_off_cs_cells[0].copy()` — the input reference's buffer after the call is
identical to its content before the call, in every execution path. -/
theorem combine_heap_preserves (refs : List ℕ) (boldness : ℚ) (rm : Option ℕ)
    (hp : Heap) (r : ℕ) (hr : r < hp.length) :
    readH (combine_heap hp refs boldness rm).1 r = readH hp r := by
  cases refs with
  | nil => rfl
  | cons r0 rest =>
    simp only [combine_heap, allocH]
    set h3 := hp ++ [NpObj.mat (asMat (readH hp r0))] with hh3
    have hread3 : readH h3 r = readH hp r := readH_of_append _ _ _ hr
    have hlen3 : hp.length ≤ h3.length := by
      rw [hh3]
      simp
    obtain ⟨hadd_len, hadd_read⟩ :=
      addLoop_preserves hp.length rest hp.length (le_refl _) h3
    set h4 := rest.foldl (addLoopStep hp.length) h3 with hh4
    have hread4 : readH h4 r = readH hp r := by
      rw [hadd_read r hr]
      exact hread3
    have hlen4 : hp.length ≤ h4.length := le_trans hlen3 hadd_len
    set h5 := h4 ++ [NpObj.mat (minMaxNormalize (asMat (readH h4 hp.length)))] with hh5
    have hread5 : readH h5 r = readH hp r := by
      rw [hh5, readH_of_append _ _ _ (lt_of_lt_of_le hr hlen4)]
      exact hread4
    have hlen5 : hp.length ≤ h5.length := by
      rw [hh5]
      simp
      omega
    split
    · exact hread5
    · split
      · exact hread5
      · cases rm with
        | none =>
          show readH (h5 ++ [_]) r = readH hp r
          rw [readH_of_append _ _ _ (lt_of_lt_of_le hr hlen5)]
          exact hread5
        | some n =>
          show readH ((h5 ++ [_]) ++ [_]) r = readH hp r
          have hr6 : ∀ v : NpObj, r < (h5 ++ [v]).length := by
            intro v
            simp only [List.length_append, List.length_cons, List.length_nil]
            have := lt_of_lt_of_le hr hlen5
            omega
          rw [readH_of_append _ _ _ (hr6 _),
            readH_of_append _ _ _ (lt_of_lt_of_le hr hlen5)]
          exact hread5

/-- Claim C10: `binarize_text` never modifies the caller's image buffer.  In
the state-passing embedding of the function's statements — where the
grayscale conversion reads the input buffer and allocates
(`image_array.copy()` feeds `rgb2gray` / `img_as_float`), each scale
iteration allocates its blur and response buffers, and the only in-place
write (`off_cs_cells += ...`) targets the accumulator freshly allocated by
`ls_off_cs_cells[0].copy()` — the input reference's buffer after the call is
identical to its content before the call, in every execution path. -/
theorem binarize_heap_preserves_input (h0 : Heap) (imgRef : ℕ) (scales : List Scale)
    (boldness : ℚ) (rm : Option ℕ) (hr : imgRef < h0.length) :
    readH (binarize_text_heap h0 imgRef scales boldness rm).1 imgRef
      = readH h0 imgRef := by
  simp only [binarize_text_heap, allocH]
  set h1 := h0 ++ [NpObj.mat (grayscaleStep (readInput (readH h0 imgRef)))] with hh1
  have hread1 : readH h1 imgRef = readH h0 imgRef := readH_of_append _ _ _ hr
  have hl1 : h0.length ≤ h1.length := by
    rw [hh1]
    simp
  obtain ⟨hlp_len, hlp_read⟩ := scaleLoop_preserves h0.length scales (h1, [])
  set lp := scales.foldl (scaleLoopStep h0.length) (h1, []) with hlp
  have hlen2 : h0.length ≤ lp.1.length := le_trans hl1 hlp_len
  rw [combine_heap_preserves lp.2 boldness rm lp.1 imgRef (lt_of_lt_of_le hr hlen2)]
  rw [hlp_read imgRef (lt_of_lt_of_le hr hl1)]
  exact hread1

theorem binarize_heap_preserves_input_witness :
    (0 : ℕ) < ([NpObj.mat [[some 1]]] : Heap).length ∧
      readH (binarize_text_heap [NpObj.mat [[some 1]]] 0 [⟨[1], [1]⟩] 1 (some 10)).1 0
        = readH [NpObj.mat [[some 1]]] 0 :=
  ⟨by decide,
    binarize_heap_preserves_input [NpObj.mat [[some 1]]] 0 [⟨[1], [1]⟩] 1 (some 10)
      (by decide)⟩
